import Mathlib

/-!
Verification of the supernet conflict-free CIDR store.

This file gives a shallow embedding of the Go packages `pkg/trie` and
`pkg/supernet`: the binary trie, the BitPath codec (`CidrToBits`,
`BitsToCidr`), the priority comparator, the conflict classifier
(`isThereAConflict`), the resolution planner (`Resolve`), the action
executors, the splitter (`splitAround`), and the top level operations
`InsertCidr` and `LookupIP`.  Go heap pointers into the live trie are
represented by root-to-node bit paths; a mutation through a pointer becomes
a functional update of the tree at that path.  A Go `panic` is represented
by `GoResult.panicked`; a normal return by `GoResult.ok`.
-/

namespace SupernetModel

/-- Result of running a piece of Go code: a normal return value, or a
runtime panic carrying the panic message. -/
inductive GoResult (α : Type) where
  | ok (val : α)
  | panicked (msg : String)
  deriving DecidableEq

instance : Monad GoResult where
  pure := GoResult.ok
  bind x f := match x with
    | GoResult.ok v => f v
    | GoResult.panicked m => GoResult.panicked m

/-- Map over the value of a normal return, keeping panics. -/
def GoResult.map {α β : Type} (f : α → β) : GoResult α → GoResult β
  | GoResult.ok v => GoResult.ok (f v)
  | GoResult.panicked m => GoResult.panicked m

/-- Go `net.IPNet`: an IP address and a mask, both as byte sequences
(each byte a natural number below 256). -/
structure IPNet where
  ip : List Nat
  mask : List Nat
  deriving DecidableEq

/-- `supernet.Metadata`: the properties of a CIDR node
(supernet.go lines 79-84). -/
structure Metadata where
  originCIDR : Option IPNet := none
  IsV6 : Bool := false
  Priority : List Nat := []
  Attributes : List (String × String) := []
  deriving DecidableEq

/-! ## BitPath codec (pkg/supernet/uitls.go) -/

/-- The 8 bits of one address byte, most significant first.  Bit `i` of
byte `v` is `v >> (7-i) & 1` (uitls.go line 125). -/
def byteBits (v : Nat) : List Nat :=
  (List.range 8).map (fun i => v / 2 ^ (7 - i) % 2)

/-- All bits of a byte sequence, most significant bit of the first byte
first. -/
def bytesBits (bs : List Nat) : List Nat :=
  (bs.map byteBits).flatten

/-- Build one byte from a list of bits exactly as the inner loop of
`BitsToCidr` does: `b = b<<1 | byte(bit)` on a Go `byte`
(uitls.go lines 42-43). -/
def packByte (bits : List Nat) : Nat :=
  bits.foldl (fun a b => a * 2 % 256 ||| b % 256) 0

/-- `BitsToCidr` (uitls.go lines 26-58): convert a slice of bits into a
`net.IPNet`.  Per output byte the Go loop consumes the next 8 entries of
the bit slice while `currentBit <= len(bits)-1`, shifting in zeros
afterwards; the mask byte receives a 1 for every consumed bit.  This is
the same as packing 8-bit chunks of the zero-padded bit list. -/
def BitsToCidr (bits : List Nat) (ipV6 : Bool) : IPNet :=
  let maxBytes : Nat := if ipV6 then 16 else 4
  let ipPadded := bits ++ List.replicate (8 * maxBytes - bits.length) 0
  let maskPadded :=
    List.replicate bits.length 1 ++ List.replicate (8 * maxBytes - bits.length) 0
  { ip := (List.range maxBytes).map (fun iB => packByte ((ipPadded.drop (8 * iB)).take 8)),
    mask := (List.range maxBytes).map (fun iB => packByte ((maskPadded.drop (8 * iB)).take 8)) }

/-- Go `net.IPMask.Size()`: the number of leading 1 bits when the mask is
canonical (ones followed by zeros); 0 for a non-canonical mask. -/
def maskOnes (mask : List Nat) : Nat :=
  let bits := bytesBits mask
  let k := (bits.takeWhile (fun b => b = 1)).length
  if (bits.drop k).all (fun b => b = 0) then k else 0

/-- `CidrToBits` (uitls.go lines 106-138): the first `maskSize` bits of the
address, and `maskSize - 1`.  Panics when the mask is `/0`; the loop over
the address bytes falls through to a panic when the address has fewer bits
than the mask size.  (The Go panic message also appends the rendered CIDR;
the rendering is elided here.) -/
def CidrToBits (ipnet : IPNet) : GoResult (List Nat × Nat) :=
  let maskSize := maskOnes ipnet.mask
  if maskSize = 0 then
    GoResult.panicked "[BUG] cidrToBits: network Mask /0 not valid"
  else if maskSize ≤ (bytesBits ipnet.ip).length then
    GoResult.ok ((bytesBits ipnet.ip).take maskSize, maskSize - 1)
  else
    GoResult.panicked "[BUG] cidrToBits: bit calculation error - did not process enough bits for the mask size"

/-! ## Prefix order on bit paths -/

/-- `isPref a b`: the bit path `a` is a prefix of the bit path `b`;
equivalently the CIDR of `a` contains the CIDR of `b`. -/
def isPref (a b : List Nat) : Prop := b.take a.length = a

instance isPrefDecidable (a b : List Nat) : Decidable (isPref a b) := by
  unfold isPref; infer_instance

theorem isPref_refl (a : List Nat) : isPref a a := by
  simp [isPref]

theorem isPref_length {a b : List Nat} (h : isPref a b) : a.length ≤ b.length := by
  have := congrArg List.length h
  simp [List.length_take] at this
  omega

theorem isPref_nil (b : List Nat) : isPref [] b := by simp [isPref]

theorem getD_take {b : List Nat} {n i : Nat} (h : i < n) :
    (b.take n).getD i 0 = b.getD i 0 := by
  rw [List.getD_eq_getElem?_getD, List.getD_eq_getElem?_getD,
    List.getElem?_take_of_lt h]

theorem isPref_getD {a b : List Nat} (h : isPref a b) {i : Nat} (hi : i < a.length) :
    b.getD i 0 = a.getD i 0 := by
  unfold isPref at h
  rw [← h, getD_take hi]

theorem isPref_of_getD {a b : List Nat} (hlen : a.length ≤ b.length)
    (h : ∀ i < a.length, b.getD i 0 = a.getD i 0) : isPref a b := by
  unfold isPref
  apply List.ext_getElem
  · simp [List.length_take]; omega
  · intro i hi₁ hi₂
    have hia : i < a.length := hi₂
    have := h i hia
    simp [List.getD_eq_getElem?_getD, List.getElem?_eq_getElem, hia,
      Nat.lt_of_lt_of_le hia hlen] at this
    simpa [List.getElem_take] using this

theorem isPref_append (a c : List Nat) : isPref a (a ++ c) := by
  simp [isPref, List.take_left]

theorem isPref_take (n : Nat) (x : List Nat) : isPref (x.take n) x := by
  unfold isPref
  simp [List.length_take, List.take_take]

theorem isPref_trans {a b c : List Nat} (h1 : isPref a b) (h2 : isPref b c) :
    isPref a c := by
  apply isPref_of_getD (Nat.le_trans (isPref_length h1) (isPref_length h2))
  intro i hi
  rw [isPref_getD h2 (Nat.lt_of_lt_of_le hi (isPref_length h1))]
  exact isPref_getD h1 hi

theorem isPref_snoc_iff {u x : List Nat} {c : Nat} (h : u.length < x.length) :
    isPref (u ++ [c]) x ↔ isPref u x ∧ x.getD u.length 0 = c := by
  constructor
  · intro hp
    refine ⟨isPref_trans (isPref_append u [c]) hp, ?_⟩
    have := isPref_getD hp (i := u.length) (by simp)
    simpa [List.getD_append_right, Nat.le_refl] using this
  · rintro ⟨hp, hc⟩
    apply isPref_of_getD (by simp; omega)
    intro i hi
    simp at hi
    rcases Nat.lt_or_ge i u.length with hlt | hge
    · rw [List.getD_append _ _ _ _ hlt]
      exact isPref_getD hp hlt
    · have hieq : i = u.length := by omega
      subst hieq
      rw [List.getD_append_right _ _ _ _ (Nat.le_refl _)]
      simpa using hc

/-! ## Binary trie (pkg/trie/trie.go)

A `trie.BinaryTrie[Metadata]` node has a parent pointer, two child slots,
optional metadata, a position bit and a depth.  Here a node is identified
by its root-to-node bit path: the depth is the path length and the
position bit is the last path element (invariants I4/I5 hold by
construction), so only the metadata and the child slots are stored. -/

inductive BTrie where
  | mk (metadata : Option Metadata) (child0 : Option BTrie) (child1 : Option BTrie)

/-- The metadata of a node (`Metadata()`, trie.go lines 233-235). -/
def BTrie.metadata : BTrie → Option Metadata
  | BTrie.mk m _ _ => m

/-- The child slot at a bit (`Child`, trie.go lines 269-276).  Go indexes
`children[at]`; a bit outside 0/1 would be an index-out-of-range panic and
never occurs. -/
def BTrie.childAt : BTrie → Nat → Option BTrie
  | BTrie.mk _ c0 _, 0 => c0
  | BTrie.mk _ _ c1, 1 => c1
  | _, _ => none

/-- `IsLeaf` (trie.go lines 328-330): both child slots empty. -/
def BTrie.IsLeaf : BTrie → Bool
  | BTrie.mk _ none none => true
  | _ => false

/-- Resolve a root-to-node path to the node it denotes, if any.  This is
the reading of a Go node pointer in the path representation. -/
def getNode : BTrie → List Nat → Option BTrie
  | t, [] => some t
  | t, b :: rest =>
    match t.childAt b with
    | none => none
    | some ch => getNode ch rest

/-- Replace the content of one child slot of a node. -/
def setChildAt : BTrie → Nat → Option BTrie → BTrie
  | BTrie.mk m _ c1, 0, c => BTrie.mk m c c1
  | BTrie.mk m c0 _, 1, c => BTrie.mk m c0 c
  | t, _, _ => t

/-- `AttachChild` (trie.go lines 243-248) applied through a parent path:
attach `child` in slot `bit` of the node at `parentPath` when the slot is
empty, otherwise keep the existing child.  The boolean is `true` exactly
when Go's `AttachChild` returns its argument (a new attachment).  A parent
path that does not resolve leaves the tree unchanged; in Go this cannot
happen because the caller holds a live pointer to the parent. -/
def attachChildAt : BTrie → List Nat → Nat → BTrie → BTrie × Bool
  | t, [], bit, child =>
    match t.childAt bit with
    | some _ => (t, false)
    | none => (setChildAt t bit (some child), true)
  | t, b :: rest, bit, child =>
    match t.childAt b with
    | none => (t, false)
    | some ch =>
      let r := attachChildAt ch rest bit child
      (setChildAt t b (some r.1), r.2)

/-- `ReplaceChild` (trie.go lines 252-258) applied through a parent path:
put `child` in slot `bit` of the node at `parentPath`, dropping any
existing subtree there. -/
def replaceChildAt : BTrie → List Nat → Nat → BTrie → BTrie
  | t, [], bit, child => setChildAt t bit (some child)
  | t, b :: rest, bit, child =>
    match t.childAt b with
    | none => t
    | some ch => setChildAt t b (some (replaceChildAt ch rest bit child))

/-- `UpdateMetadata` (trie.go lines 237-239) applied at a path. -/
def updateMetaAt : BTrie → List Nat → Option Metadata → BTrie
  | BTrie.mk _ c0 c1, [], m => BTrie.mk m c0 c1
  | t, b :: rest, m =>
    match t.childAt b with
    | none => t
    | some ch => setChildAt t b (some (updateMetaAt ch rest m))

/-- `Detach` (trie.go lines 289-295) at a path: clear the slot of the
parent that points at the node.  Never called on the root. -/
def removeAt : BTrie → List Nat → BTrie
  | t, [] => t
  | t, [b] => setChildAt t b none
  | t, b :: rest =>
    match t.childAt b with
    | none => t
    | some ch => setChildAt t b (some (removeAt ch rest))

/-- The path of the sibling of a (non-root) node: same path with the last
bit XOR-flipped (`AttachSibling`/`Sibling` use `pos ^ 1`, trie.go
lines 261-263 and 279-281). -/
def flipLast : List Nat → List Nat
  | [] => []
  | [b] => [b ^^^ 1]
  | b :: rest => b :: flipLast rest

/-- The upward walk of `DetachBranch` (trie.go lines 307-325), computing
the ancestor that will be detached.  `revCur` is the reversed path of the
walk's current node, `revNearest` the reversed path of the tracked
`nearestBranchedNode`.  The walk continues while the current node is not
the root, has no sibling, and its depth exceeds `limit`; the callback
moves `nearestBranchedNode` to the current node's parent whenever that
parent is not the root. -/
def detachBranchLoop (t : BTrie) (limit : Nat) : List Nat → List Nat → List Nat
  | [], revNearest => revNearest
  | b :: rest, revNearest =>
    if (getNode t (((b ^^^ 1) :: rest).reverse)).isSome = false ∧ rest.length + 1 > limit then
      detachBranchLoop t limit rest (if rest.isEmpty then revNearest else rest)
    else revNearest

/-- `DetachBranch` (trie.go lines 307-325): walk up from the node at `p`
and detach the nearest ancestor chosen by `detachBranchLoop`. -/
def DetachBranch (t : BTrie) (p : List Nat) (limit : Nat) : GoResult BTrie :=
  if p.isEmpty then GoResult.panicked "[Bug] DetachBranch: You can not detach Root"
  else
    let revNearest := detachBranchLoop t limit p.reverse p.reverse
    if revNearest.isEmpty then
      GoResult.panicked "[BUG] Detach: You can not Detach the root"
    else GoResult.ok (removeAt t revNearest.reverse)

/-- `Leafs` (trie.go lines 383-391): all leaves strictly below a node, in
preorder with slot 0 before slot 1, paired with their root-to-node paths
(`base` is the path of the subtree root). -/
def leafsUnder : BTrie → List Nat → List (List Nat × BTrie)
  | BTrie.mk _ none none, _ => []
  | BTrie.mk _ (some ch) none, base =>
    (if ch.IsLeaf then [(base ++ [0], ch)] else []) ++ leafsUnder ch (base ++ [0])
  | BTrie.mk _ none (some ch), base =>
    (if ch.IsLeaf then [(base ++ [1], ch)] else []) ++ leafsUnder ch (base ++ [1])
  | BTrie.mk _ (some ch0) (some ch1), base =>
    ((if ch0.IsLeaf then [(base ++ [0], ch0)] else []) ++ leafsUnder ch0 (base ++ [0])) ++
    ((if ch1.IsLeaf then [(base ++ [1], ch1)] else []) ++ leafsUnder ch1 (base ++ [1]))

/-- The paths (relative to the given node) of all leaf nodes that carry an
entry: the entry-carrying leaves of `GetLeafs`/`Leafs` as used by
`getAllV4CidrsString` and `AllCIDRS`. -/
def entryLeafPaths : BTrie → List (List Nat)
  | BTrie.mk m none none => if m.isSome then [[]] else []
  | BTrie.mk _ (some ch) none => (entryLeafPaths ch).map (fun p => 0 :: p)
  | BTrie.mk _ none (some ch) => (entryLeafPaths ch).map (fun p => 1 :: p)
  | BTrie.mk _ (some ch0) (some ch1) =>
    (entryLeafPaths ch0).map (fun p => 0 :: p) ++
    (entryLeafPaths ch1).map (fun p => 1 :: p)

/-! ## Priority comparator (pkg/supernet/conflict.go lines 140-153) -/

/-- The loop of `comparator` over the two priority vectors: walk the
indices of `a`'s vector; the first strict inequality decides; fully equal
vectors yield `true`.  Reading past the end of `b`'s vector is a Go
index-out-of-range panic. -/
def cmpPriorities : List Nat → List Nat → GoResult Bool
  | [], _ => GoResult.ok true
  | _ :: _, [] => GoResult.panicked "runtime error: index out of range"
  | x :: xs, y :: ys =>
    if x > y then GoResult.ok true
    else if x < y then GoResult.ok false
    else cmpPriorities xs ys

/-- `comparator` (conflict.go lines 140-153; identical to
`DefaultComparator` in the unnamed draft): `a` is the new entry, `b` the
old.  The Go arguments are `*Metadata` pointers: a nil `a` panics at once;
a nil `b` panics only when the loop body first reads `b.Priority`. -/
def comparator : Option Metadata → Option Metadata → GoResult Bool
  | none, _ =>
    GoResult.panicked "runtime error: invalid memory address or nil pointer dereference"
  | some ma, some mb => cmpPriorities ma.Priority mb.Priority
  | some ma, none =>
    match ma.Priority with
    | [] => GoResult.ok true
    | _ :: _ =>
      GoResult.panicked "runtime error: invalid memory address or nil pointer dereference"

/-! ## Conflict classification and resolution (pkg/supernet) -/

/-- The closed set of conflict kinds (conflict.go lines 10-15). -/
inductive ConflictType where
  | noConflict
  | equalCIDR
  | superCIDR
  | subCIDR
  deriving DecidableEq

/-- `isThereAConflict` (supernet.go lines 210-231): classify the current
node against the targeted depth.  `currentDepth` is the node's absolute
depth (its path length); `targetedDepth` is the length of the bit slice
handed to `buildPath`. -/
def isThereAConflict (currentNode : BTrie) (currentDepth targetedDepth : Nat) :
    GoResult ConflictType :=
  match currentNode.metadata with
  | none =>
    if targetedDepth = currentDepth ∧ currentNode.IsLeaf = false then
      GoResult.ok ConflictType.superCIDR
    else
      GoResult.ok ConflictType.noConflict
  | some _ =>
    if currentDepth = targetedDepth then GoResult.ok ConflictType.equalCIDR
    else if currentDepth < targetedDepth then GoResult.ok ConflictType.subCIDR
    else GoResult.panicked "[BUG] isThereAConflict: unhandled edge case encountered"

/-- The walk of `buildPath` (supernet.go lines 11-25): from the node at
`cur`, attach a fresh path node for each bit where the slot is empty and
classify after each step.  `targetedDepth` stays the length of the
original `path` argument for the whole walk.  Returns the updated tree,
the last touched node's path and value, the conflict, and the remaining
bits after the conflict point. -/
def buildPathLoop (t : BTrie) (cur : List Nat) (curNode : BTrie) (targetedDepth : Nat) :
    List Nat → GoResult (BTrie × List Nat × BTrie × ConflictType × List Nat)
  | [] => GoResult.ok (t, cur, curNode, ConflictType.noConflict, [])
  | bit :: rest =>
    let r := attachChildAt t cur bit (BTrie.mk none none none)
    match getNode r.1 (cur ++ [bit]) with
    | none =>
      GoResult.panicked "runtime error: invalid memory address or nil pointer dereference"
    | some node =>
      match isThereAConflict node (cur ++ [bit]).length targetedDepth with
      | GoResult.panicked m => GoResult.panicked m
      | GoResult.ok ConflictType.noConflict =>
        buildPathLoop r.1 (cur ++ [bit]) node targetedDepth rest
      | GoResult.ok other => GoResult.ok (r.1, cur ++ [bit], node, other, rest)

/-- `buildPath` (supernet.go lines 11-25), starting at the node whose path
is `base` (the root for a top-level insert, the conflicted point inside
`InsertNewCIDR.Execute`). -/
def buildPath (t : BTrie) (base : List Nat) (path : List Nat) :
    GoResult (BTrie × List Nat × BTrie × ConflictType × List Nat) :=
  match getNode t base with
  | none =>
    GoResult.panicked "runtime error: invalid memory address or nil pointer dereference"
  | some baseNode => buildPathLoop t base baseNode path.length path

/-! ## Splitter (supernet.go lines 251-283) -/

/-- The upward walk of `splitAround`: `revCur` is the reversed path of the
walk's current node.  While the current node is not the root and its depth
exceeds `limitDepth`, attach a sibling node carrying a copy of the split
metadata; a sibling that was newly attached (Go: `added == newCidr`) is
recorded.  Returns the updated tree and the paths of the nodes added, in
walk order (deepest first). -/
def splitLoop (t : BTrie) (meta : Metadata) (limitDepth : Nat) :
    List Nat → BTrie × List (List Nat)
  | [] => (t, [])
  | b :: rest =>
    if rest.length + 1 > limitDepth then
      let r := attachChildAt t rest.reverse (b ^^^ 1) (BTrie.mk (some meta) none none)
      let res := splitLoop r.1 meta limitDepth rest
      if r.2 then (res.1, (rest.reverse ++ [b ^^^ 1]) :: res.2) else res
    else (t, [])

/-- `splitAround` (supernet.go lines 251-283): walk up from the node at
`sub` and surround it with siblings carrying `newCidrMetadata`, stopping
at depth `limitDepth`.  Panics when the metadata pointer is nil. -/
def splitAround (t : BTrie) (sub : List Nat) (newCidrMetadata : Option Metadata)
    (limitDepth : Nat) : GoResult (BTrie × List (List Nat)) :=
  match newCidrMetadata with
  | none => GoResult.panicked "[BUG] splitAround: Metadata is required to split a supernet"
  | some meta => GoResult.ok (splitLoop t meta limitDepth sub.reverse)

/-! ## Actions and plans (pkg/supernet/action.go, results.go) -/

/-- The closed set of actions (action.go lines 14-20). -/
inductive ActionTag where
  | ignoreInsertion
  | insertNewCIDR
  | removeExistingCIDR
  | splitInsertedCIDR
  | splitExistingCIDR
  deriving DecidableEq

/-- `ActionResult` (action.go lines 127-131), with node snapshots. -/
structure ActionResult where
  Action : ActionTag
  AddedCidrs : List BTrie := []
  RemoveCidrs : List BTrie := []

/-- `PlanStep`: an action together with the path of its Go `TargetNode`
pointer.  Steps whose executor ignores the target (`Ignore`, and `Insert`
whose Go target is the still-detached new node) carry `[]`. -/
structure PlanStep where
  Action : ActionTag
  TargetNode : List Nat

/-- `ResolutionPlan` (unnamed part 005). -/
structure ResolutionPlan where
  Conflicts : List BTrie := []
  Steps : List PlanStep := []

/-- `NoConflict.Resolve` (conflict.go lines 17-21). -/
def resolveNoConflict (atPath : List Nat) : ResolutionPlan :=
  { Steps := [{ Action := ActionTag.insertNewCIDR, TargetNode := atPath }] }

/-- `EqualCIDR.Resolve` (conflict.go lines 27-39). -/
def resolveEqual (conflictedCidr : BTrie) (conflictedPath : List Nat) (newCidr : BTrie) :
    GoResult ResolutionPlan := do
  let preferNew ← comparator newCidr.metadata conflictedCidr.metadata
  if preferNew then
    pure { Conflicts := [conflictedCidr],
           Steps := [{ Action := ActionTag.removeExistingCIDR, TargetNode := conflictedPath },
                     { Action := ActionTag.insertNewCIDR, TargetNode := conflictedPath }] }
  else
    pure { Conflicts := [conflictedCidr],
           Steps := [{ Action := ActionTag.ignoreInsertion, TargetNode := [] }] }

/-- The partition loop of `SuperCIDR.Resolve` (conflict.go lines 55-63):
record every conflicted sub-cidr and split the list into those the new
cidr beats (low priority) and those it loses to (high priority). -/
def partitionLeafs (newMeta : Option Metadata) :
    List (List Nat × BTrie) → GoResult (List BTrie × List (List Nat) × List (List Nat))
  | [] => GoResult.ok ([], [], [])
  | (p, leaf) :: rest => do
    let preferNew ← comparator newMeta leaf.metadata
    let r ← partitionLeafs newMeta rest
    if preferNew then GoResult.ok (leaf :: r.1, p :: r.2.1, r.2.2)
    else GoResult.ok (leaf :: r.1, r.2.1, p :: r.2.2)

/-- `SuperCIDR.Resolve` (conflict.go lines 45-81). -/
def resolveSuper (conflictPoint : BTrie) (conflictPath : List Nat) (newCidr : BTrie) :
    GoResult ResolutionPlan := do
  let conflictedSubCidrs := leafsUnder conflictPoint conflictPath
  let r ← partitionLeafs newCidr.metadata conflictedSubCidrs
  let (conflicts, lows, highs) := r
  let removeSteps := lows.map
    (fun p => { Action := ActionTag.removeExistingCIDR, TargetNode := p : PlanStep })
  let splitSteps := highs.map
    (fun p => { Action := ActionTag.splitInsertedCIDR, TargetNode := p : PlanStep })
  let insertSteps :=
    if highs.isEmpty then
      [{ Action := ActionTag.insertNewCIDR, TargetNode := conflictPath : PlanStep }]
    else []
  pure { Conflicts := conflicts, Steps := removeSteps ++ splitSteps ++ insertSteps }

/-- `SubCIDR.Resolve` (conflict.go lines 87-104). -/
def resolveSub (existingSuperCidr : BTrie) (superPath : List Nat) (newCidr : BTrie) :
    GoResult ResolutionPlan := do
  let preferNew ← comparator newCidr.metadata existingSuperCidr.metadata
  if preferNew then
    pure { Conflicts := [existingSuperCidr],
           Steps := [{ Action := ActionTag.insertNewCIDR, TargetNode := [] },
                     { Action := ActionTag.splitExistingCIDR, TargetNode := superPath },
                     { Action := ActionTag.removeExistingCIDR, TargetNode := superPath }] }
  else
    pure { Conflicts := [existingSuperCidr],
           Steps := [{ Action := ActionTag.ignoreInsertion, TargetNode := [] }] }

/-- `conflictType.Resolve(lastNode, newCidrNode)` (supernet.go line 39). -/
def Resolve (c : ConflictType) (lastNode : BTrie) (lastPath : List Nat) (newCidr : BTrie) :
    GoResult ResolutionPlan :=
  match c with
  | ConflictType.noConflict => GoResult.ok (resolveNoConflict lastPath)
  | ConflictType.equalCIDR => resolveEqual lastNode lastPath newCidr
  | ConflictType.superCIDR => resolveSuper lastNode lastPath newCidr
  | ConflictType.subCIDR => resolveSub lastNode lastPath newCidr

/-- `InsertNewCIDR.Execute` (action.go lines 32-59): rebuild the residual
path from the conflicted point, then replace the final path node with the
new entry node. -/
def executeInsert (t : BTrie) (newCidr : BTrie) (conflictedPath remainingPath : List Nat) :
    GoResult (BTrie × ActionResult) :=
  match getNode t conflictedPath with
  | none =>
    GoResult.panicked "[BUG] Action[InsertNewCIDR].Execute:: conflictedPoint Node must not be nil"
  | some conflictedPoint =>
    if conflictedPoint.IsLeaf = false then
      GoResult.panicked "[BUG] Action[InsertNewCIDR].Execute:: conflictedPoint node must be a leaf"
    else
      match buildPath t conflictedPath remainingPath with
      | GoResult.panicked m => GoResult.panicked m
      | GoResult.ok (t₁, lastPath, lastNode, conflictType, _) =>
        match conflictType with
        | ConflictType.noConflict =>
          if lastNode.metadata.isSome then
            GoResult.panicked "[BUG] Action[InsertNewCIDR].Execute:: Last node must be path node without metadata"
          else
            match lastPath.reverse with
            | [] =>
              GoResult.panicked "runtime error: invalid memory address or nil pointer dereference"
            | lastBit :: revParent =>
              GoResult.ok (replaceChildAt t₁ revParent.reverse lastBit newCidr,
                { Action := ActionTag.insertNewCIDR, AddedCidrs := [newCidr] })
        | _ =>
          GoResult.panicked "[BUG] Action[InsertNewCIDR].Execute:: Can not insert CIDR while there is a conflict unresolved"

/-- `RemoveExistingCIDR.Execute` (action.go lines 65-82): record the
target, then clear its entry in place when the new cidr's prefix length is
at least the target's depth, otherwise detach the branch with limit
`newCidrDepth + 1`.  A target path that no longer resolves would be a
dangling pointer; the plans the engine produces never create one. -/
def executeRemove (t : BTrie) (newCidr : BTrie) (targetPath : List Nat) :
    GoResult (BTrie × ActionResult) :=
  match getNode t targetPath with
  | none =>
    GoResult.panicked "runtime error: invalid memory address or nil pointer dereference"
  | some targetNode =>
    let ar : ActionResult :=
      { Action := ActionTag.removeExistingCIDR, RemoveCidrs := [targetNode] }
    match newCidr.metadata with
    | none =>
      GoResult.panicked "runtime error: invalid memory address or nil pointer dereference"
    | some md =>
      match md.originCIDR with
      | none =>
        GoResult.panicked "runtime error: invalid memory address or nil pointer dereference"
      | some cidr =>
        let newCidrDepth := maskOnes cidr.mask
        if newCidrDepth ≥ targetPath.length then
          GoResult.ok (updateMetaAt t targetPath none, ar)
        else
          match DetachBranch t targetPath (newCidrDepth + 1) with
          | GoResult.panicked m => GoResult.panicked m
          | GoResult.ok t' => GoResult.ok (t', ar)

/-- `SplitInsertedCIDR.Execute` (action.go lines 88-102): split around the
existing winning sub-cidr at `targetPath`, materializing copies of the new
cidr's metadata, limited at the conflicted point's depth. -/
def executeSplitInserted (t : BTrie) (newCidr : BTrie) (conflictedPath targetPath : List Nat) :
    GoResult (BTrie × ActionResult) :=
  match splitAround t targetPath newCidr.metadata conflictedPath.length with
  | GoResult.panicked m => GoResult.panicked m
  | GoResult.ok (t', addedPaths) =>
    GoResult.ok (t', { Action := ActionTag.splitInsertedCIDR,
                       AddedCidrs := addedPaths.filterMap (fun p => getNode t' p) })

/-- `SplitExistingCIDR.Execute` (action.go lines 108-121): split around
the NEW cidr node — which the preceding `Insert` step of the Sub plan
placed at `fullPath` — materializing copies of the target's (the existing
supernet's) metadata. -/
def executeSplitExisting (t : BTrie) (fullPath conflictedPath targetPath : List Nat) :
    GoResult (BTrie × ActionResult) :=
  match getNode t targetPath with
  | none =>
    GoResult.panicked "runtime error: invalid memory address or nil pointer dereference"
  | some targetNode =>
    match splitAround t fullPath targetNode.metadata conflictedPath.length with
    | GoResult.panicked m => GoResult.panicked m
    | GoResult.ok (t', addedPaths) =>
      GoResult.ok (t', { Action := ActionTag.splitExistingCIDR,
                         AddedCidrs := addedPaths.filterMap (fun p => getNode t' p) })

/-- Dispatch of `step.Action.Execute(newCidrNode, lastNode, step.TargetNode,
remainingPath)` (supernet.go line 44).  `fullPath` is the complete bit
path of the inserted CIDR. -/
def executeStep (t : BTrie) (newCidr : BTrie) (fullPath conflictedPath remainingPath : List Nat)
    (step : PlanStep) : GoResult (BTrie × ActionResult) :=
  match step.Action with
  | ActionTag.ignoreInsertion => GoResult.ok (t, { Action := ActionTag.ignoreInsertion })
  | ActionTag.insertNewCIDR => executeInsert t newCidr conflictedPath remainingPath
  | ActionTag.removeExistingCIDR => executeRemove t newCidr step.TargetNode
  | ActionTag.splitInsertedCIDR => executeSplitInserted t newCidr conflictedPath step.TargetNode
  | ActionTag.splitExistingCIDR => executeSplitExisting t fullPath conflictedPath step.TargetNode

/-- The plan execution loop of `insertLeaf` (supernet.go lines 42-46). -/
def executeSteps (t : BTrie) (newCidr : BTrie) (fullPath conflictedPath remainingPath : List Nat) :
    List PlanStep → GoResult (BTrie × List ActionResult)
  | [] => GoResult.ok (t, [])
  | step :: rest =>
    match executeStep t newCidr fullPath conflictedPath remainingPath step with
    | GoResult.panicked m => GoResult.panicked m
    | GoResult.ok (t', ar) =>
      match executeSteps t' newCidr fullPath conflictedPath remainingPath rest with
      | GoResult.panicked m => GoResult.panicked m
      | GoResult.ok (t'', ars) => GoResult.ok (t'', ar :: ars)

/-- `InsertionResult` (supernet.go lines 52-57). -/
structure InsertionResult where
  CIDR : Option IPNet := none
  actions : List ActionResult := []
  ConflictedWith : List BTrie := []
  conflictType : ConflictType := ConflictType.noConflict

/-- `insertLeaf` (supernet.go lines 27-49). -/
def insertLeaf (root : BTrie) (path : List Nat) (newCidrNode : BTrie) :
    GoResult (BTrie × InsertionResult) :=
  match newCidrNode.metadata with
  | none =>
    GoResult.panicked "runtime error: invalid memory address or nil pointer dereference"
  | some newMeta =>
    match buildPath root [] path with
    | GoResult.panicked m => GoResult.panicked m
    | GoResult.ok (t₁, lastPath, lastNode, conflictType, remainingPath) =>
      match Resolve conflictType lastNode lastPath newCidrNode with
      | GoResult.panicked m => GoResult.panicked m
      | GoResult.ok plan =>
        match executeSteps t₁ newCidrNode path lastPath remainingPath plan.Steps with
        | GoResult.panicked m => GoResult.panicked m
        | GoResult.ok (t₂, ars) =>
          GoResult.ok (t₂, { CIDR := newMeta.originCIDR, actions := ars,
                             ConflictedWith := plan.Conflicts, conflictType := conflictType })

/-! ## The store (pkg/supernet/supernet.go) -/

/-- `Supernet` (supernet.go lines 107-110). -/
structure Supernet where
  ipv4Cidrs : BTrie
  ipv6Cidrs : BTrie

/-- `NewSupernet` (supernet.go lines 116-121). -/
def NewSupernet : Supernet :=
  { ipv4Cidrs := BTrie.mk none none none, ipv6Cidrs := BTrie.mk none none none }

/-- Go `net.IP.To4()`: a 4-byte address converts to itself, a 16-byte
IPv4-mapped address (`::ffff:a.b.c.d`) to its last 4 bytes, anything else
to nil. -/
def ipTo4 (ip : List Nat) : Option (List Nat) :=
  if ip.length = 4 then some ip
  else if ip.length = 16 ∧ ip.take 10 = List.replicate 10 0 ∧
      ip.getD 10 0 = 255 ∧ ip.getD 11 0 = 255 then
    some (ip.drop 12)
  else none

/-- `NewMetadata` (supernet.go lines 87-96). -/
def NewMetadata (ipnet : IPNet) : Metadata :=
  { originCIDR := some ipnet, IsV6 := (ipTo4 ipnet.ip).isNone }

/-- `InsertCidr` (supernet.go lines 175-203).  Go receives a `*Metadata`
and mutates the pointee (it may set `IsV6`, appends one element to
`Priority`, and overwrites `originCIDR`); the returned `Metadata` is the
state of the caller's object after the call, which is also the metadata
the new trie node carries. -/
def InsertCidr (s : Supernet) (ipnet : IPNet) (metadata : Option Metadata) :
    GoResult (Supernet × Metadata × InsertionResult) :=
  match CidrToBits ipnet with
  | GoResult.panicked m => GoResult.panicked m
  | GoResult.ok (path, depth) =>
    let copy0 := match metadata with
                 | some m => m
                 | none => NewMetadata ipnet
    let copy1 := if (ipTo4 ipnet.ip).isNone then { copy0 with IsV6 := true } else copy0
    let useV6 := (ipTo4 ipnet.ip).isNone || copy1.IsV6
    let copy2 := { copy1 with Priority := copy1.Priority ++ [depth % 256],
                              originCIDR := some ipnet }
    let root := if useV6 then s.ipv6Cidrs else s.ipv4Cidrs
    GoResult.map
      (fun tr =>
        (if useV6 then { s with ipv6Cidrs := tr.1 } else { s with ipv4Cidrs := tr.1 },
         copy2, tr.2))
      (insertLeaf root path (BTrie.mk (some copy2) none none))

/-- The traversal loop of `LookupIP` (supernet.go lines 318-329): at index
`i` examine the node reached after `i` bits; an empty pointer yields no
match, a leaf yields the CIDR of the first `i` bits, otherwise descend.
Exhausting all bits without returning hits the terminal panic
(supernet.go line 332). -/
def lookupLoop (ipBits : List Nat) (isV6 : Bool) :
    Option BTrie → List Nat → Nat → GoResult (Option IPNet × Option String)
  | _, [], _ =>
    GoResult.panicked "[BUG] LookupIP: reached an unexpected state, the CIDR trie traversal should not get here."
  | none, _ :: _, _ => GoResult.ok (none, none)
  | some node, bit :: rest, i =>
    if node.IsLeaf then GoResult.ok (some (BitsToCidr (ipBits.take i) isV6), none)
    else lookupLoop ipBits isV6 (node.childAt bit) rest (i + 1)

/-- `LookupIP` (supernet.go lines 298-333).  The string handling is Go
standard library work: `isV6` stands for `strings.Contains(ip, ":")` and
`parsed` for the `net.ParseCIDR(ip + "/32 or /128")` output, `none` when
parsing failed (then the parse error is returned as the error value). -/
def LookupIP (s : Supernet) (isV6 : Bool) (parsed : Option IPNet) :
    GoResult (Option IPNet × Option String) :=
  match parsed with
  | none => GoResult.ok (none, some "ParseError")
  | some parsedIP =>
    match CidrToBits parsedIP with
    | GoResult.panicked m => GoResult.panicked m
    | GoResult.ok (ipBits, _) =>
      lookupLoop ipBits isV6 (some (if isV6 then s.ipv6Cidrs else s.ipv4Cidrs)) ipBits 0

/-- A sequence of `InsertCidr` calls from a given store; a panic aborts
the sequence. -/
def applyInserts : Supernet → List (IPNet × Option Metadata) → GoResult Supernet
  | s, [] => GoResult.ok s
  | s, (ipnet, md) :: rest =>
    match InsertCidr s ipnet md with
    | GoResult.ok r => applyInserts r.1 rest
    | GoResult.panicked m => GoResult.panicked m

/-! ## General facts about paths and trees -/

theorem isPref_cons_iff {a b : Nat} {p q : List Nat} :
    isPref (a :: p) (b :: q) ↔ a = b ∧ isPref p q := by
  unfold isPref
  simp only [List.length_cons, List.take_succ_cons, List.cons.injEq]
  constructor
  · rintro ⟨h1, h2⟩; exact ⟨h1.symm, h2⟩
  · rintro ⟨h1, h2⟩; exact ⟨h1.symm, h2⟩

/-- Two distinct entry-leaf paths of one trie are never prefix-related:
a proper prefix of a leaf path would name an ancestor of the leaf, which
has a child. -/
theorem entryLeafPaths_pairwise : ∀ (t : BTrie) {p q : List Nat},
    p ∈ entryLeafPaths t → q ∈ entryLeafPaths t → p ≠ q →
    ¬ isPref p q ∧ ¬ isPref q p
  | BTrie.mk m none none, p, q, hp, hq, hne => by
    by_cases hm : m.isSome
    · simp [entryLeafPaths, hm] at hp hq
      exact absurd (hp.trans hq.symm) hne
    · simp [entryLeafPaths, Bool.of_not_eq_true hm] at hp
  | BTrie.mk m (some ch) none, p, q, hp, hq, hne => by
    simp only [entryLeafPaths, List.mem_map] at hp hq
    obtain ⟨p', hp', rfl⟩ := hp
    obtain ⟨q', hq', rfl⟩ := hq
    have hne' : p' ≠ q' := fun h => hne (by rw [h])
    have ih := entryLeafPaths_pairwise ch hp' hq' hne'
    exact ⟨fun hc => ih.1 (isPref_cons_iff.mp hc).2,
           fun hc => ih.2 (isPref_cons_iff.mp hc).2⟩
  | BTrie.mk m none (some ch), p, q, hp, hq, hne => by
    simp only [entryLeafPaths, List.mem_map] at hp hq
    obtain ⟨p', hp', rfl⟩ := hp
    obtain ⟨q', hq', rfl⟩ := hq
    have hne' : p' ≠ q' := fun h => hne (by rw [h])
    have ih := entryLeafPaths_pairwise ch hp' hq' hne'
    exact ⟨fun hc => ih.1 (isPref_cons_iff.mp hc).2,
           fun hc => ih.2 (isPref_cons_iff.mp hc).2⟩
  | BTrie.mk m (some ch0) (some ch1), p, q, hp, hq, hne => by
    simp only [entryLeafPaths, List.mem_append, List.mem_map] at hp hq
    rcases hp with ⟨p', hp', rfl⟩ | ⟨p', hp', rfl⟩ <;>
      rcases hq with ⟨q', hq', rfl⟩ | ⟨q', hq', rfl⟩
    · have hne' : p' ≠ q' := fun h => hne (by rw [h])
      have ih := entryLeafPaths_pairwise ch0 hp' hq' hne'
      exact ⟨fun hc => ih.1 (isPref_cons_iff.mp hc).2,
             fun hc => ih.2 (isPref_cons_iff.mp hc).2⟩
    · exact ⟨fun hc => by simpa using (isPref_cons_iff.mp hc).1,
             fun hc => by simpa using (isPref_cons_iff.mp hc).1⟩
    · exact ⟨fun hc => by simpa using (isPref_cons_iff.mp hc).1,
             fun hc => by simpa using (isPref_cons_iff.mp hc).1⟩
    · have hne' : p' ≠ q' := fun h => hne (by rw [h])
      have ih := entryLeafPaths_pairwise ch1 hp' hq' hne'
      exact ⟨fun hc => ih.1 (isPref_cons_iff.mp hc).2,
             fun hc => ih.2 (isPref_cons_iff.mp hc).2⟩

/-- The ok-value of a `GoResult`, with a default for the panic case; used
to name the results of concrete runs. -/
def GoResult.okD {α : Type} (d : α) : GoResult α → α
  | GoResult.ok v => v
  | GoResult.panicked _ => d

/-- Inversion of a successful `CidrToBits`. -/
theorem CidrToBits_ok {ipnet : IPNet} {path : List Nat} {depth : Nat}
    (h : CidrToBits ipnet = GoResult.ok (path, depth)) :
    1 ≤ maskOnes ipnet.mask ∧ depth = maskOnes ipnet.mask - 1 ∧
    path = (bytesBits ipnet.ip).take (maskOnes ipnet.mask) := by
  unfold CidrToBits at h
  by_cases h0 : maskOnes ipnet.mask = 0
  · simp [h0] at h
  · by_cases h1 : maskOnes ipnet.mask ≤ (bytesBits ipnet.ip).length
    · simp [h0, h1] at h
      exact ⟨Nat.one_le_iff_ne_zero.mpr h0, h.2.symm, h.1.symm⟩
    · simp [h0, h1] at h

/-- Inversion of `GoResult.map`: an `ok` image comes from an `ok` value. -/
theorem GoResult.map_eq_ok {α β : Type} {f : α → β} {r : GoResult α} {v : β}
    (h : GoResult.map f r = GoResult.ok v) : ∃ u, r = GoResult.ok u ∧ f u = v := by
  rcases r with u | m
  · exact ⟨u, rfl, by simpa [GoResult.map] using h⟩
  · simp [GoResult.map] at h

/-- A successful `InsertCidr` leaves the caller's metadata object with one
priority component appended (the value `maskSize - 1` of `CidrToBits`,
truncated to a byte) and its `originCIDR` overwritten. -/
theorem InsertCidr_metaOut {s : Supernet} {ipnet : IPNet} {md : Metadata}
    {s' : Supernet} {mdOut : Metadata} {res : InsertionResult}
    (h : InsertCidr s ipnet (some md) = GoResult.ok (s', mdOut, res)) :
    mdOut.Priority = md.Priority ++ [(maskOnes ipnet.mask - 1) % 256] ∧
    mdOut.originCIDR = some ipnet := by
  unfold InsertCidr at h
  split at h
  next m heq => simp at h
  next path depth heq =>
    rcases CidrToBits_ok heq with ⟨_, hdepth, _⟩
    subst hdepth
    repeat' split at h
    all_goals try injections
    all_goals try subst_vars
    all_goals
      obtain ⟨u, hil, hfv⟩ := GoResult.map_eq_ok h
      simp only [Prod.mk.injEq] at hfv
      obtain ⟨hs, hmd, hres⟩ := hfv
      rw [← hmd]
      exact ⟨rfl, rfl⟩

/-! ## C1: after any insert sequence, entry leaves are pairwise disjoint -/

/-- C1: for every finite sequence of `InsertCidr` calls with valid
prefixes starting from a fresh store, after the whole sequence completes,
any two distinct entry-carrying leaf paths of the same trie (v4 or v6) are
prefix-incomparable, hence their CIDRs are disjoint. -/
theorem C1_entry_leaves_pairwise_disjoint (ops : List (IPNet × Option Metadata))
    (s : Supernet)
    (hvalid : ∀ op ∈ ops, 1 ≤ maskOnes op.1.mask)
    (hdone : applyInserts NewSupernet ops = GoResult.ok s)
    (v6 : Bool) (p q : List Nat)
    (hp : p ∈ entryLeafPaths (if v6 then s.ipv6Cidrs else s.ipv4Cidrs))
    (hq : q ∈ entryLeafPaths (if v6 then s.ipv6Cidrs else s.ipv4Cidrs))
    (hpq : p ≠ q) :
    ¬ isPref p q ∧ ¬ isPref q p :=
  entryLeafPaths_pairwise _ hp hq hpq

/-- Two /1 inserts into a fresh store, for the C1 witness. -/
def c1ops : List (IPNet × Option Metadata) :=
  [(⟨[0,0,0,0],[128,0,0,0]⟩, none), (⟨[128,0,0,0],[128,0,0,0]⟩, none)]

def c1state : Supernet := (applyInserts NewSupernet c1ops).okD NewSupernet

theorem C1_witness :
    (∀ op ∈ c1ops, 1 ≤ maskOnes op.1.mask) ∧
    applyInserts NewSupernet c1ops = GoResult.ok c1state ∧
    [0] ∈ entryLeafPaths (if false then c1state.ipv6Cidrs else c1state.ipv4Cidrs) ∧
    [1] ∈ entryLeafPaths (if false then c1state.ipv6Cidrs else c1state.ipv4Cidrs) ∧
    ([0] : List Nat) ≠ [1] ∧ (¬ isPref [0] [1] ∧ ¬ isPref [1] [0]) :=
  ⟨by decide, rfl, by decide, by decide, by decide,
   C1_entry_leaves_pairwise_disjoint c1ops c1state (by decide) rfl false [0] [1]
     (by decide) (by decide) (by decide)⟩

/-! ## C2: the lookup loop can exhaust and reach the terminal panic -/

def c2store : Supernet :=
  (applyInserts NewSupernet [(⟨[1,2,3,4],[255,255,255,255]⟩, none)]).okD NewSupernet

/-- C2 evidence: a store built by one valid insert (the /32 `1.2.3.4/32`,
for which invariants I1-I6 hold) on which `LookupIP` of the well-formed
address `1.2.3.4` runs all 32 steps without ever testing the depth-32
leaf, and reaches the terminal panic — contradicting the claim that the
walk never reaches it. -/
theorem C2_lookup_reaches_panic :
    applyInserts NewSupernet [(⟨[1,2,3,4],[255,255,255,255]⟩, none)] =
      GoResult.ok c2store ∧
    LookupIP c2store false (some ⟨[1,2,3,4],[255,255,255,255]⟩) =
      GoResult.panicked "[BUG] LookupIP: reached an unexpected state, the CIDR trie traversal should not get here." :=
  ⟨rfl, rfl⟩

/-! ## C8: inserting a /0 panics instead of returning an error -/

/-- C8 counterexample: inserting the `/0` CIDR `0.0.0.0/0` does not
surface an error value to the caller — `InsertCidr` has no error result at
all — it panics inside `CidrToBits`. -/
theorem C8_counterexample :
    InsertCidr NewSupernet ⟨[0,0,0,0],[0,0,0,0]⟩ none =
      GoResult.panicked "[BUG] cidrToBits: network Mask /0 not valid" := rfl

/-- C8 amended: inserting a CIDR whose mask is `/0` makes `InsertCidr`
panic with the InvalidPrefix message of `CidrToBits`; the panic fires
before any trie mutation, so the store is untouched. -/
theorem C8_amended (s : Supernet) (ipnet : IPNet) (md : Option Metadata)
    (h : maskOnes ipnet.mask = 0) :
    InsertCidr s ipnet md =
      GoResult.panicked "[BUG] cidrToBits: network Mask /0 not valid" := by
  unfold InsertCidr CidrToBits
  simp [h]

theorem C8_witness :
    maskOnes ([0,0,0,0] : List Nat) = 0 ∧
    InsertCidr NewSupernet ⟨[1,2,3,4],[0,0,0,0]⟩ none =
      GoResult.panicked "[BUG] cidrToBits: network Mask /0 not valid" :=
  ⟨by decide, C8_amended NewSupernet ⟨[1,2,3,4],[0,0,0,0]⟩ none (by decide)⟩

/-! ## C4: the priority component appended by the engine -/

/-- C4 counterexample: inserting `10.0.0.0/8` (prefix length `n = 8`) with
an empty priority vector appends `7`, not the prefix length `8`:
`CidrToBits` returns `maskSize - 1` and `InsertCidr` appends that. -/
theorem C4_counterexample :
    GoResult.map (fun r => r.2.1.Priority)
      (InsertCidr NewSupernet ⟨[10,0,0,0],[255,0,0,0]⟩ (some {})) =
      GoResult.ok [7] ∧ (7 : Nat) ≠ 8 := ⟨rfl, by decide⟩

/-- C4 amended: for every successful `InsertCidr` of a CIDR with prefix
length `n`, the engine appends `uint8(n - 1)` — the prefix length minus
one — as the final component of the entry's priority vector before any
comparator call sees the entry. -/
theorem C4_amended (s : Supernet) (ipnet : IPNet) (md : Metadata)
    (s' : Supernet) (mdOut : Metadata) (res : InsertionResult) (n : Nat)
    (hn : maskOnes ipnet.mask = n)
    (h : InsertCidr s ipnet (some md) = GoResult.ok (s', mdOut, res)) :
    mdOut.Priority = md.Priority ++ [(n - 1) % 256] := by
  rcases InsertCidr_metaOut h with ⟨h1, _⟩
  rw [h1, hn]

def c4out : Supernet × Metadata × InsertionResult :=
  (InsertCidr NewSupernet ⟨[10,0,0,0],[255,0,0,0]⟩ (some {})).okD (NewSupernet, {}, {})

theorem C4_witness :
    maskOnes ([255,0,0,0] : List Nat) = 8 ∧
    InsertCidr NewSupernet ⟨[10,0,0,0],[255,0,0,0]⟩ (some {}) = GoResult.ok c4out ∧
    c4out.2.1.Priority = ({} : Metadata).Priority ++ [(8 - 1) % 256] :=
  ⟨by decide, rfl,
   C4_amended NewSupernet ⟨[10,0,0,0],[255,0,0,0]⟩ {} c4out.1 c4out.2.1 c4out.2.2 8
     (by decide) rfl⟩

/-! ## C9: InsertCidr mutates the caller's metadata object in place -/

/-- C9: `InsertCidr` mutates the caller-supplied `Metadata` in place —
after a call the caller's object has one more priority component and its
`originCIDR` overwritten — so passing the same pointer to two successive
calls makes the second insert work with a vector one element longer. -/
theorem C9_metadata_mutated_in_place (s s₁ s₂ : Supernet) (ip1 ip2 : IPNet)
    (md md₁ md₂ : Metadata) (r₁ r₂ : InsertionResult)
    (h₁ : InsertCidr s ip1 (some md) = GoResult.ok (s₁, md₁, r₁))
    (h₂ : InsertCidr s₁ ip2 (some md₁) = GoResult.ok (s₂, md₂, r₂)) :
    md₁.Priority.length = md.Priority.length + 1 ∧
    md₁.originCIDR = some ip1 ∧
    md₂.Priority.length = md.Priority.length + 2 ∧
    md₂.originCIDR = some ip2 := by
  rcases InsertCidr_metaOut h₁ with ⟨p1, o1⟩
  rcases InsertCidr_metaOut h₂ with ⟨p2, o2⟩
  refine ⟨?_, o1, ?_, o2⟩
  · rw [p1]; simp
  · rw [p2, p1]; simp

def c9out1 : Supernet × Metadata × InsertionResult :=
  (InsertCidr NewSupernet ⟨[10,0,0,0],[255,0,0,0]⟩ (some {})).okD (NewSupernet, {}, {})

def c9out2 : Supernet × Metadata × InsertionResult :=
  (InsertCidr c9out1.1 ⟨[11,0,0,0],[255,0,0,0]⟩ (some c9out1.2.1)).okD (NewSupernet, {}, {})

theorem C9_witness :
    InsertCidr NewSupernet ⟨[10,0,0,0],[255,0,0,0]⟩ (some {}) = GoResult.ok c9out1 ∧
    InsertCidr c9out1.1 ⟨[11,0,0,0],[255,0,0,0]⟩ (some c9out1.2.1) = GoResult.ok c9out2 ∧
    (c9out1.2.1.Priority.length = ({} : Metadata).Priority.length + 1 ∧
     c9out1.2.1.originCIDR = some ⟨[10,0,0,0],[255,0,0,0]⟩ ∧
     c9out2.2.1.Priority.length = ({} : Metadata).Priority.length + 2 ∧
     c9out2.2.1.originCIDR = some ⟨[11,0,0,0],[255,0,0,0]⟩) :=
  ⟨rfl, rfl,
   C9_metadata_mutated_in_place NewSupernet c9out1.1 c9out2.1
     ⟨[10,0,0,0],[255,0,0,0]⟩ ⟨[11,0,0,0],[255,0,0,0]⟩
     {} c9out1.2.1 c9out2.2.1 c9out1.2.2 c9out2.2.2 rfl rfl⟩

/-! ## Codec length facts -/

theorem byteBits_length (v : Nat) : (byteBits v).length = 8 := by simp [byteBits]

theorem bytesBits_cons (b : Nat) (rest : List Nat) :
    bytesBits (b :: rest) = byteBits b ++ bytesBits rest := by
  simp [bytesBits]

theorem bytesBits_length (bs : List Nat) : (bytesBits bs).length = 8 * bs.length := by
  induction bs with
  | nil => simp [bytesBits]
  | cons b rest ih =>
    rw [bytesBits_cons]
    simp [byteBits_length, ih]
    ring

theorem byteBits_255 : byteBits 255 = List.replicate 8 1 := by decide

theorem bytesBits_replicate255 (k : Nat) :
    bytesBits (List.replicate k 255) = List.replicate (8 * k) 1 := by
  induction k with
  | zero => simp [bytesBits]
  | succ n ih =>
    rw [List.replicate_succ, bytesBits_cons, ih, byteBits_255, ← List.replicate_add]
    congr 1
    ring

theorem takeWhile_ones (n : Nat) :
    (List.replicate n 1).takeWhile (fun b => b = 1) = List.replicate n 1 := by
  induction n with
  | zero => simp
  | succ m ih => simp [List.replicate_succ, List.takeWhile_cons, ih]

theorem maskOnes_replicate255 (k : Nat) : maskOnes (List.replicate k 255) = 8 * k := by
  unfold maskOnes
  rw [bytesBits_replicate255]
  simp [takeWhile_ones]

/-! ## C10: lookup on an empty trie returns the /0 network -/

/-- C10: on a store whose trie for the queried family is empty (a bare
root), `LookupIP` of any well-formed IP of that family returns the
all-zeros `/0` network (mask length 0) with a nil error, because the root
is a leaf at the first loop step. -/
theorem C10_lookup_empty_returns_zero_cidr (s : Supernet) (v6 : Bool) (ipb : List Nat)
    (hroot : (if v6 then s.ipv6Cidrs else s.ipv4Cidrs) = BTrie.mk none none none)
    (hlen : ipb.length = if v6 then 16 else 4) :
    LookupIP s v6 (some ⟨ipb, List.replicate (if v6 then 16 else 4) 255⟩) =
      GoResult.ok (some (BitsToCidr [] v6), none) ∧
    (BitsToCidr [] v6).ip = List.replicate (if v6 then 16 else 4) 0 ∧
    maskOnes (BitsToCidr [] v6).mask = 0 := by
  refine ⟨?_, ?_, ?_⟩
  · cases v6
    case false =>
      simp only [Bool.false_eq_true, if_false] at hroot hlen ⊢
      have hm : maskOnes (List.replicate 4 255) = 32 := by
        rw [maskOnes_replicate255]
      have hbl : (bytesBits ipb).length = 32 := by rw [bytesBits_length, hlen]
      unfold LookupIP CidrToBits
      simp only [hm, hbl]
      norm_num
      have hbits : ∃ b rest, (bytesBits ipb).take 32 = b :: rest := by
        have h32 : ((bytesBits ipb).take 32).length = 32 := by simp [hbl]
        cases hc : (bytesBits ipb).take 32 with
        | nil => rw [hc] at h32; simp at h32
        | cons b rest => exact ⟨b, rest, rfl⟩
      obtain ⟨b, rest, hbr⟩ := hbits
      rw [hbr, hroot]
      simp [lookupLoop, BTrie.IsLeaf]
    case true =>
      simp only [if_true] at hroot hlen ⊢
      have hm : maskOnes (List.replicate 16 255) = 128 := by
        rw [maskOnes_replicate255]
      have hbl : (bytesBits ipb).length = 128 := by rw [bytesBits_length, hlen]
      unfold LookupIP CidrToBits
      simp only [hm, hbl]
      norm_num
      have hbits : ∃ b rest, (bytesBits ipb).take 128 = b :: rest := by
        have h128 : ((bytesBits ipb).take 128).length = 128 := by simp [hbl]
        cases hc : (bytesBits ipb).take 128 with
        | nil => rw [hc] at h128; simp at h128
        | cons b rest => exact ⟨b, rest, rfl⟩
      obtain ⟨b, rest, hbr⟩ := hbits
      rw [hbr, hroot]
      simp [lookupLoop, BTrie.IsLeaf]
  · cases v6 <;> decide
  · cases v6 <;> decide

theorem C10_witness :
    (if false then NewSupernet.ipv6Cidrs else NewSupernet.ipv4Cidrs) =
      BTrie.mk none none none ∧
    ([9,9,9,9] : List Nat).length = (if false then 16 else 4 : Nat) ∧
    LookupIP NewSupernet false (some ⟨[9,9,9,9], List.replicate (if false then 16 else 4) 255⟩) =
      GoResult.ok (some (BitsToCidr [] false), none) :=
  ⟨rfl, by decide,
   (C10_lookup_empty_returns_zero_cidr NewSupernet false [9,9,9,9] rfl (by decide)).1⟩

/-! ## C5: the default comparator is lexicographic with ties to the newcomer -/

/-- The comparator loop over equal-length vectors: `ok true` exactly when
the vectors are equal or the first differing position favours `pa`. -/
theorem cmp_lex : ∀ (pa pb : List Nat), pa.length = pb.length →
    (cmpPriorities pa pb = GoResult.ok true ↔
      (pa = pb ∨ ∃ i, i < pa.length ∧ (∀ j, j < i → pa.getD j 0 = pb.getD j 0) ∧
        pb.getD i 0 < pa.getD i 0))
  | [], [], _ => by simp [cmpPriorities]
  | [], b :: bs, h => by simp at h
  | a :: as, [], h => by simp at h
  | a :: as, b :: bs, h => by
    have hlen : as.length = bs.length := by simpa using h
    have ih := cmp_lex as bs hlen
    by_cases hgt : b < a
    · constructor
      · intro _
        exact Or.inr ⟨0, by simp, by omega, by simpa using hgt⟩
      · intro _
        simp [cmpPriorities, hgt]
    · by_cases hlt : a < b
      · have hne : cmpPriorities (a :: as) (b :: bs) = GoResult.ok false := by
          simp [cmpPriorities, hgt, hlt]
        rw [hne]
        constructor
        · intro hcontr; simp at hcontr
        · rintro (heq | ⟨i, hi, hall, hgt2⟩)
          · have : a = b := by
              have := congrArg (fun l => l.getD 0 0) heq
              simpa using this
            omega
          · rcases Nat.eq_zero_or_pos i with rfl | hipos
            · simp at hgt2; omega
            · have h0 := hall 0 hipos
              simp at h0
              omega
      · have hab : a = b := by omega
        subst hab
        have hred : cmpPriorities (a :: as) (a :: bs) = cmpPriorities as bs := by
          simp [cmpPriorities]
        rw [hred, ih]
        constructor
        · rintro (heq | ⟨i, hi, hall, hgt2⟩)
          · exact Or.inl (by rw [heq])
          · refine Or.inr ⟨i + 1, by simpa using Nat.succ_lt_succ hi, ?_, by simpa using hgt2⟩
            intro j hj
            cases j with
            | zero => simp
            | succ j' => simpa using hall j' (by omega)
        · rintro (heq | ⟨i, hi, hall, hgt2⟩)
          · refine Or.inl ?_
            have := congrArg List.tail heq
            simpa using this
          · rcases i with _ | i'
            · simp at hgt2
            · refine Or.inr ⟨i', by simpa using hi, ?_, by simpa using hgt2⟩
              intro j hj
              have := hall (j + 1) (by omega)
              simpa using this

/-- C5: for entries `a` (new) and `b` (old) with equal-length priority
vectors, the default comparator returns true iff at the first index where
the vectors differ `a`'s component is greater, and it returns true on
fully equal vectors (ties favour the newcomer). -/
theorem C5_comparator_lex (a b : Metadata) (h : a.Priority.length = b.Priority.length) :
    comparator (some a) (some b) = GoResult.ok true ↔
      (a.Priority = b.Priority ∨
       ∃ i, i < a.Priority.length ∧
         (∀ j, j < i → a.Priority.getD j 0 = b.Priority.getD j 0) ∧
         b.Priority.getD i 0 < a.Priority.getD i 0) := by
  show cmpPriorities a.Priority b.Priority = GoResult.ok true ↔ _
  exact cmp_lex _ _ h

theorem C5_witness :
    (([3, 1] : List Nat).length = ([2, 9] : List Nat).length) ∧
    (comparator (some { Priority := [3, 1] }) (some { Priority := [2, 9] }) =
        GoResult.ok true ↔
      (([3, 1] : List Nat) = [2, 9] ∨
       ∃ i, i < ([3, 1] : List Nat).length ∧
         (∀ j, j < i → ([3, 1] : List Nat).getD j 0 = ([2, 9] : List Nat).getD j 0) ∧
         ([2, 9] : List Nat).getD i 0 < ([3, 1] : List Nat).getD i 0)) :=
  ⟨by decide,
   C5_comparator_lex { Priority := [3, 1] } { Priority := [2, 9] } (by decide)⟩

/-! ## C3: what RemoveExistingCIDR.Execute does -/

theorem isPref_cons_inv {b : Nat} {a q : List Nat} (h : isPref (b :: a) q) :
    ∃ qrest, q = b :: qrest ∧ isPref a qrest := by
  cases q with
  | nil =>
    have := isPref_length h
    simp at this
  | cons x xs =>
    obtain ⟨hbx, h2⟩ := isPref_cons_iff.mp h
    exact ⟨xs, by rw [hbx], h2⟩

/-- Detaching the node at a nonempty path `a` kills every path it is a
prefix of. -/
theorem getNode_removeAt : ∀ (a : List Nat) (t : BTrie) (q : List Nat),
    a ≠ [] → isPref a q → getNode (removeAt t a) q = none
  | [], _, _, h, _ => absurd rfl h
  | [b], t, q, _, hpref => by
    obtain ⟨qrest, rfl, _⟩ := isPref_cons_inv hpref
    cases t with
    | mk m c0 c1 =>
      match b with
      | 0 => simp [removeAt, setChildAt, getNode, BTrie.childAt]
      | 1 => simp [removeAt, setChildAt, getNode, BTrie.childAt]
      | (n+2) => simp [removeAt, setChildAt, getNode, BTrie.childAt]
  | b :: c :: rest, t, q, _, hpref => by
    obtain ⟨qrest, rfl, hpref'⟩ := isPref_cons_inv hpref
    have hne' : (c :: rest) ≠ [] := by simp
    cases t with
    | mk m c0 c1 =>
      match b with
      | 0 =>
        cases c0 with
        | none => simp [removeAt, getNode, BTrie.childAt]
        | some ch =>
          have ih := getNode_removeAt (c :: rest) ch qrest hne' hpref'
          simp [removeAt, getNode, BTrie.childAt, setChildAt, ih]
      | 1 =>
        cases c1 with
        | none => simp [removeAt, getNode, BTrie.childAt]
        | some ch =>
          have ih := getNode_removeAt (c :: rest) ch qrest hne' hpref'
          simp [removeAt, getNode, BTrie.childAt, setChildAt, ih]
      | (n+2) => simp [removeAt, getNode, BTrie.childAt]

/-- The `DetachBranch` walk ends at the starting node or at a proper
ancestor that is still below the root. -/
theorem detachBranchLoop_suffix (t : BTrie) (limit : Nat) :
    ∀ (revCur revNearest : List Nat),
      detachBranchLoop t limit revCur revNearest = revNearest ∨
      ∃ k, 0 < k ∧ k ≤ revCur.length ∧
        detachBranchLoop t limit revCur revNearest = revCur.drop k ∧ revCur.drop k ≠ []
  | [], rn => by left; simp [detachBranchLoop]
  | b :: rest, rn => by
    rw [detachBranchLoop]
    split
    · rcases detachBranchLoop_suffix t limit rest (if rest.isEmpty then rn else rest) with
        heq | ⟨k, hk0, hkle, heq, hne⟩
      · rw [heq]
        cases hrest : rest with
        | nil => left; simp [hrest]
        | cons c rs =>
          right
          refine ⟨1, by omega, by simp, by simp [hrest], by simp [hrest]⟩
      · right
        refine ⟨k + 1, by omega, by simp; omega, by simpa using heq, by simpa using hne⟩
    · left; rfl

/-- `DetachBranch` on a non-root node never panics and removes the node
(its detached ancestor is an ancestor-or-self of the node). -/
theorem DetachBranch_removes {t : BTrie} {p : List Nat} {limit : Nat} (hp : p ≠ []) :
    ∃ t', DetachBranch t p limit = GoResult.ok t' ∧ getNode t' p = none := by
  unfold DetachBranch
  have hpe : p.isEmpty = false := by
    cases p with
    | nil => exact absurd rfl hp
    | cons a as => rfl
  rw [if_neg (by simp [hpe])]
  rcases detachBranchLoop_suffix t limit p.reverse p.reverse with heq | ⟨k, hk0, hkle, heq, hne⟩
  · rw [heq]
    rw [if_neg (by simpa using hp)]
    refine ⟨_, rfl, ?_⟩
    rw [List.reverse_reverse]
    exact getNode_removeAt p t p hp (isPref_refl p)
  · rw [heq]
    rw [if_neg (by simpa using hne)]
    refine ⟨_, rfl, ?_⟩
    have hrev : (p.reverse.drop k).reverse = p.take (p.length - k) := by
      rw [List.drop_reverse, List.reverse_reverse]
    rw [hrev]
    apply getNode_removeAt _ t p _ (isPref_take _ p)
    rw [← hrev]
    simpa using hne

/-- Clearing an entry in place keeps the node and its children. -/
theorem getNode_updateMetaAt (mnew : Option Metadata) :
    ∀ (q : List Nat) (t tn : BTrie), getNode t q = some tn →
      getNode (updateMetaAt t q mnew) q =
        some (BTrie.mk mnew (tn.childAt 0) (tn.childAt 1))
  | [], t, tn, h => by
    cases t with
    | mk m c0 c1 =>
      simp [getNode] at h
      subst h
      simp [updateMetaAt, getNode, BTrie.childAt]
  | b :: rest, t, tn, h => by
    cases t with
    | mk m c0 c1 =>
      match b with
      | 0 =>
        cases c0 with
        | none => simp [getNode, BTrie.childAt] at h
        | some ch =>
          simp only [getNode, BTrie.childAt] at h
          have ih := getNode_updateMetaAt mnew rest ch tn h
          simp [updateMetaAt, getNode, BTrie.childAt, setChildAt, ih]
      | 1 =>
        cases c1 with
        | none => simp [getNode, BTrie.childAt] at h
        | some ch =>
          simp only [getNode, BTrie.childAt] at h
          have ih := getNode_updateMetaAt mnew rest ch tn h
          simp [updateMetaAt, getNode, BTrie.childAt, setChildAt, ih]
      | (n+2) => simp [getNode, BTrie.childAt] at h

/-- Concrete tree for the C3 counterexample: a chain
root → path node → entry node at depth 2 (the entry `0.0.0.0/2`). -/
def c3tree : BTrie :=
  BTrie.mk none
    (some (BTrie.mk none
      (some (BTrie.mk (some { originCIDR := some ⟨[0,0,0,0],[192,0,0,0]⟩,
                              Priority := [0] }) none none))
      none))
    none

/-- The new CIDR node of the C3 counterexample: `0.0.0.0/1`. -/
def c3newCidr : BTrie :=
  BTrie.mk (some { originCIDR := some ⟨[0,0,0,0],[128,0,0,0]⟩, Priority := [1] })
    none none

/-- C3 counterexample: the inserted CIDR is `/1` (length 1) and the target
entry sits at depth 2, so per the claim (`target depth ≥ inserted length`)
the entry should be cleared in place and the node kept; the code instead
takes the `DetachBranch` arm and the target node is gone afterwards. -/
theorem C3_counterexample :
    (2 : Nat) ≥ 1 ∧
    maskOnes ([128,0,0,0] : List Nat) = 1 ∧
    (getNode c3tree [0,0]).isSome = true ∧
    GoResult.map (fun r => (getNode r.1 [0,0]).isSome) (executeRemove c3tree c3newCidr [0,0]) =
      GoResult.ok false ∧
    (getNode (updateMetaAt c3tree [0,0] none) [0,0]).isSome = true :=
  ⟨by decide, by decide, rfl, rfl, rfl⟩

/-- C3 amended: when `RemoveExistingCIDR.Execute` runs for a target entry
node, the comparison goes the other way round from the claim: if the
inserted CIDR's prefix length is **at least** the target's depth the
target's entry is cleared in place (the node survives with its entry
removed); if the inserted prefix length is **less than** the target's
depth, the branch is detached with limit `inserted_depth + 1` and the
target node disappears from the trie. -/
theorem C3_amended (t newCidr : BTrie) (targetPath : List Nat) (md : Metadata)
    (cidr : IPNet) (tn : BTrie)
    (hmeta : newCidr.metadata = some md) (horig : md.originCIDR = some cidr)
    (htarget : getNode t targetPath = some tn) (hne : targetPath ≠ []) :
    (maskOnes cidr.mask ≥ targetPath.length →
      executeRemove t newCidr targetPath =
        GoResult.ok (updateMetaAt t targetPath none,
          { Action := ActionTag.removeExistingCIDR, RemoveCidrs := [tn] }) ∧
      getNode (updateMetaAt t targetPath none) targetPath =
        some (BTrie.mk none (tn.childAt 0) (tn.childAt 1))) ∧
    (maskOnes cidr.mask < targetPath.length →
      ∃ t', executeRemove t newCidr targetPath =
          GoResult.ok (t', { Action := ActionTag.removeExistingCIDR, RemoveCidrs := [tn] }) ∧
        DetachBranch t targetPath (maskOnes cidr.mask + 1) = GoResult.ok t' ∧
        getNode t' targetPath = none) := by
  constructor
  · intro hge
    refine ⟨?_, getNode_updateMetaAt none targetPath t tn htarget⟩
    simp only [executeRemove, htarget, hmeta, horig]
    rw [if_pos hge]
  · intro hlt
    obtain ⟨t', hdb, hgone⟩ :=
      @DetachBranch_removes t targetPath (maskOnes cidr.mask + 1) hne
    refine ⟨t', ?_, hdb, hgone⟩
    simp only [executeRemove, htarget, hmeta, horig]
    rw [if_neg (by omega), hdb]

theorem C3_witness :
    (c3newCidr.metadata = some { originCIDR := some ⟨[0,0,0,0],[128,0,0,0]⟩,
                                 Priority := [1] }) ∧
    getNode c3tree [0] =
      some (BTrie.mk none
        (some (BTrie.mk (some { originCIDR := some ⟨[0,0,0,0],[192,0,0,0]⟩,
                                Priority := [0] }) none none)) none) ∧
    maskOnes ([128,0,0,0] : List Nat) ≥ ([0] : List Nat).length ∧
    executeRemove c3tree c3newCidr [0] =
      GoResult.ok (updateMetaAt c3tree [0] none,
        { Action := ActionTag.removeExistingCIDR,
          RemoveCidrs := [BTrie.mk none
            (some (BTrie.mk (some { originCIDR := some ⟨[0,0,0,0],[192,0,0,0]⟩,
                                    Priority := [0] }) none none)) none] }) :=
  ⟨rfl, rfl, by decide,
   ((C3_amended c3tree c3newCidr [0]
      { originCIDR := some ⟨[0,0,0,0],[128,0,0,0]⟩, Priority := [1] }
      ⟨[0,0,0,0],[128,0,0,0]⟩ _ rfl rfl rfl (by decide)).1 (by decide)).1⟩

/-! ## C7: the codec round-trip -/

/-- The plain binary value of a bit list, MSB first. -/
def bval (bs : List Nat) : Nat := bs.foldl (fun a b => a * 2 + b) 0

theorem even_lor_one {x : Nat} (h : x % 2 = 0) : x ||| 1 = x + 1 := by
  apply Nat.eq_of_testBit_eq
  intro i
  cases i with
  | zero => simp; omega
  | succ j =>
    rw [Nat.testBit_or, Nat.testBit_add_one, Nat.testBit_add_one, Nat.testBit_add_one]
    have h2 : (1 : Nat) / 2 = 0 := by norm_num
    have h3 : (x + 1) / 2 = x / 2 := by omega
    rw [h2, h3, Nat.zero_testBit, Bool.or_false]

theorem step_lor (a b : Nat) (hb : b ≤ 1) (ha : a * 2 < 256) :
    a * 2 % 256 ||| b % 256 = a * 2 + b := by
  rw [Nat.mod_eq_of_lt ha]
  interval_cases b
  · simp
  · have h1 : (1 : Nat) % 256 = 1 := by norm_num
    rw [h1]
    exact even_lor_one (by omega)

/-- Over bits, the byte-building fold of `BitsToCidr` never truncates and
the OR is an addition. -/
theorem pack_fold : ∀ (bs : List Nat) (acc : Nat), (∀ b ∈ bs, b ≤ 1) →
    bs.length ≤ 8 → acc < 2 ^ (8 - bs.length) →
    bs.foldl (fun a b => a * 2 % 256 ||| b % 256) acc =
      bs.foldl (fun a b => a * 2 + b) acc
  | [], _, _, _, _ => rfl
  | b :: rest, acc, hb, hlen, hacc => by
    have hb0 : b ≤ 1 := hb b (by simp)
    have hlen' : rest.length ≤ 8 := by simp at hlen; omega
    have hlen8 : rest.length + 1 ≤ 8 := by simpa using hlen
    have hacc2 : acc * 2 < 256 := by
      have h7 : acc < 2 ^ 7 := by
        apply lt_of_lt_of_le hacc
        apply Nat.pow_le_pow_right (by omega)
        simp only [List.length_cons]
        omega
      omega
    simp only [List.foldl_cons]
    rw [step_lor acc b hb0 hacc2]
    apply pack_fold rest (acc * 2 + b) (fun x hx => hb x (by simp [hx])) hlen'
    have h8 : 8 - rest.length = (8 - (rest.length + 1)) + 1 := by omega
    rw [h8, pow_succ]
    simp only [List.length_cons] at hacc
    omega

theorem packByte_eq_bval (bs : List Nat) (hb : ∀ b ∈ bs, b ≤ 1)
    (hlen : bs.length ≤ 8) : packByte bs = bval bs := by
  unfold packByte bval
  exact pack_fold bs 0 hb hlen (Nat.pos_pow_of_pos _ (by omega))

theorem bval_aux : ∀ (bs : List Nat) (acc : Nat),
    bs.foldl (fun a b => a * 2 + b) acc = acc * 2 ^ bs.length + bval bs
  | [], acc => by simp [bval]
  | b :: rest, acc => by
    simp only [List.foldl_cons]
    rw [bval_aux rest (acc * 2 + b)]
    conv_rhs => rw [bval]
    simp only [List.foldl_cons]
    rw [bval_aux rest (0 * 2 + b), List.length_cons]
    ring

theorem bval_cons (b : Nat) (rest : List Nat) :
    bval (b :: rest) = b * 2 ^ rest.length + bval rest := by
  conv_lhs => rw [bval]
  simp only [List.foldl_cons]
  rw [bval_aux rest (0 * 2 + b)]
  ring

theorem bval_lt : ∀ (bs : List Nat), (∀ b ∈ bs, b ≤ 1) → bval bs < 2 ^ bs.length
  | [], _ => by simp [bval]
  | b :: rest, hb => by
    rw [bval_cons]
    have h1 := bval_lt rest (fun x hx => hb x (by simp [hx]))
    have hb0 : b ≤ 1 := hb b (by simp)
    have hmul : b * 2 ^ rest.length ≤ 2 ^ rest.length := by
      calc b * 2 ^ rest.length ≤ 1 * 2 ^ rest.length :=
            Nat.mul_le_mul_right _ hb0
        _ = 2 ^ rest.length := one_mul _
    have hx : (2:Nat) ^ (rest.length + 1) = 2 ^ rest.length * 2 := pow_succ 2 _
    simp only [List.length_cons]
    omega

/-- Extracting bit `i` (MSB first) of the binary value recovers the bit. -/
theorem bval_extract : ∀ (bs : List Nat), (∀ b ∈ bs, b ≤ 1) →
    ∀ i, i < bs.length → bval bs / 2 ^ (bs.length - 1 - i) % 2 = bs.getD i 0
  | [], _, i, hi => by simp at hi
  | b :: rest, hb, i, hi => by
    rw [bval_cons]
    have hbrest : ∀ x ∈ rest, x ≤ 1 := fun x hx => hb x (by simp [hx])
    have hb0 : b ≤ 1 := hb b (by simp)
    have hlt := bval_lt rest hbrest
    cases i with
    | zero =>
      simp only [List.length_cons, List.getD_cons_zero]
      have hexp : rest.length + 1 - 1 - 0 = rest.length := by omega
      rw [hexp, mul_comm, Nat.mul_add_div (Nat.pos_pow_of_pos _ (by omega)),
        Nat.div_eq_of_lt hlt, Nat.add_zero, Nat.mod_eq_of_lt (by omega)]
    | succ j =>
      simp only [List.length_cons, List.getD_cons_succ]
      have hj : j < rest.length := by simp at hi; omega
      have hexp : rest.length + 1 - 1 - (j + 1) = rest.length - 1 - j := by omega
      rw [hexp]
      have hsplit : b * 2 ^ rest.length =
          2 ^ (rest.length - 1 - j) * (b * 2 ^ (j + 1)) := by
        rw [mul_comm (2 ^ (rest.length - 1 - j)), mul_assoc, ← pow_add]
        congr 2
        omega
      rw [hsplit, Nat.add_comm,
        Nat.add_mul_div_left _ _ (Nat.pos_pow_of_pos _ (by omega))]
      have hmod : (bval rest / 2 ^ (rest.length - 1 - j) + b * 2 ^ (j + 1)) % 2 =
          bval rest / 2 ^ (rest.length - 1 - j) % 2 := by
        rw [pow_succ, ← mul_assoc]
        exact Nat.add_mul_mod_self_right _ _ _
      rw [hmod]
      exact bval_extract rest hbrest j hj

/-- Packing 8 bits into a byte and expanding again is the identity. -/
theorem byteBits_packByte (c : List Nat) (hb : ∀ b ∈ c, b ≤ 1)
    (hlen : c.length = 8) : byteBits (packByte c) = c := by
  rw [packByte_eq_bval c hb (by omega)]
  unfold byteBits
  apply List.ext_getElem
  · simp [hlen]
  · intro i hi1 hi2
    simp only [List.getElem_map, List.getElem_range]
    have hi8 : i < 8 := by simpa using hi1
    have hx := bval_extract c hb i (by omega)
    rw [hlen] at hx
    have hexp : (8:Nat) - 1 - i = 7 - i := by omega
    rw [hexp] at hx
    rw [hx]
    simp [List.getD_eq_getElem?_getD, List.getElem?_eq_getElem, hi2]

/-- Flattening the 8-bit chunks of a list recovers its first `8 * n`
entries. -/
theorem flatten_chunks : ∀ (n : Nat) (l : List Nat),
    ((List.range n).map (fun iB => (l.drop (8 * iB)).take 8)).flatten = l.take (8 * n)
  | 0, l => by simp
  | n + 1, l => by
    rw [List.range_succ_eq_map]
    simp only [List.map_cons, List.map_map, List.flatten_cons, Nat.mul_zero,
      List.drop_zero]
    have hcomp : (List.range n).map ((fun iB => (l.drop (8 * iB)).take 8) ∘ Nat.succ) =
        (List.range n).map (fun iB => ((l.drop 8).drop (8 * iB)).take 8) := by
      apply List.map_congr_left
      intro iB _
      simp only [Function.comp]
      rw [List.drop_drop]
      congr 2
      omega
    rw [hcomp, flatten_chunks n (l.drop 8)]
    have h8 : 8 * (n + 1) = 8 + 8 * n := by ring
    rw [h8, List.take_add]

/-- The address bytes of `BitsToCidr` expand to the zero-padded bit list. -/
theorem bytesBits_BitsToCidr_ip (bits : List Nat) (ipV6 : Bool)
    (hb : ∀ b ∈ bits, b ≤ 1)
    (hlen : bits.length ≤ 8 * (if ipV6 then 16 else 4)) :
    bytesBits (BitsToCidr bits ipV6).ip =
      bits ++ List.replicate (8 * (if ipV6 then 16 else 4) - bits.length) 0 := by
  set W : Nat := if ipV6 then 16 else 4 with hW
  set padded := bits ++ List.replicate (8 * W - bits.length) 0 with hpadded
  have hplen : padded.length = 8 * W := by
    rw [hpadded]
    simp
    omega
  have hpb : ∀ b ∈ padded, b ≤ 1 := by
    intro b hbm
    rw [hpadded] at hbm
    rcases List.mem_append.mp hbm with h | h
    · exact hb b h
    · have := List.eq_of_mem_replicate h
      omega
  have hmain : (BitsToCidr bits ipV6).ip =
      (List.range W).map (fun iB => packByte ((padded.drop (8 * iB)).take 8)) := rfl
  rw [hmain]
  unfold bytesBits
  rw [List.map_map]
  have hcongr : (List.range W).map
        (byteBits ∘ fun iB => packByte ((padded.drop (8 * iB)).take 8)) =
      (List.range W).map (fun iB => (padded.drop (8 * iB)).take 8) := by
    apply List.map_congr_left
    intro iB hiB
    have hiBW : iB < W := List.mem_range.mp hiB
    simp only [Function.comp]
    apply byteBits_packByte
    · intro b hbm
      exact hpb b (List.mem_of_mem_drop (List.mem_of_mem_take hbm))
    · simp [hplen]
      omega
  rw [hcongr, flatten_chunks W padded]
  rw [← hplen, List.take_length]

/-- The mask bytes of `BitsToCidr` expand to ones followed by zeros. -/
theorem bytesBits_BitsToCidr_mask (bits : List Nat) (ipV6 : Bool)
    (hlen : bits.length ≤ 8 * (if ipV6 then 16 else 4)) :
    bytesBits (BitsToCidr bits ipV6).mask =
      List.replicate bits.length 1 ++
        List.replicate (8 * (if ipV6 then 16 else 4) - bits.length) 0 := by
  set W : Nat := if ipV6 then 16 else 4 with hW
  set padded := List.replicate bits.length 1 ++
      List.replicate (8 * W - bits.length) 0 with hpadded
  have hplen : padded.length = 8 * W := by
    rw [hpadded]
    simp
    omega
  have hpb : ∀ b ∈ padded, b ≤ 1 := by
    intro b hbm
    rw [hpadded] at hbm
    rcases List.mem_append.mp hbm with h | h
    · have := List.eq_of_mem_replicate h
      omega
    · have := List.eq_of_mem_replicate h
      omega
  have hmain : (BitsToCidr bits ipV6).mask =
      (List.range W).map (fun iB => packByte ((padded.drop (8 * iB)).take 8)) := rfl
  rw [hmain]
  unfold bytesBits
  rw [List.map_map]
  have hcongr : (List.range W).map
        (byteBits ∘ fun iB => packByte ((padded.drop (8 * iB)).take 8)) =
      (List.range W).map (fun iB => (padded.drop (8 * iB)).take 8) := by
    apply List.map_congr_left
    intro iB hiB
    have hiBW : iB < W := List.mem_range.mp hiB
    simp only [Function.comp]
    apply byteBits_packByte
    · intro b hbm
      exact hpb b (List.mem_of_mem_drop (List.mem_of_mem_take hbm))
    · simp [hplen]
      omega
  rw [hcongr, flatten_chunks W padded]
  rw [← hplen, List.take_length]

theorem takeWhile_ones_zeros (a b : Nat) :
    (List.replicate a 1 ++ List.replicate b 0).takeWhile (fun x => x = 1) =
      List.replicate a 1 := by
  induction a with
  | zero =>
    cases b with
    | zero => simp
    | succ b' => simp [List.replicate_succ, List.takeWhile_cons]
  | succ a' ih => simp [List.replicate_succ, List.takeWhile_cons, ih]

/-- `maskOnes` of a canonical ones-then-zeros mask is the ones count. -/
theorem maskOnes_ones_zeros (mask : List Nat) (a b : Nat)
    (h : bytesBits mask = List.replicate a 1 ++ List.replicate b 0) :
    maskOnes mask = a := by
  simp only [maskOnes]
  rw [h, takeWhile_ones_zeros]
  have hdrop : (List.replicate a (1:Nat) ++ List.replicate b 0).drop
      (List.replicate a (1:Nat)).length = List.replicate b 0 :=
    List.drop_left _ _
  simp only [List.length_replicate] at hdrop ⊢
  rw [hdrop]
  simp

/-- The mask produced by `BitsToCidr` is canonical with exactly
`bits.length` leading set bits. -/
theorem maskOnes_BitsToCidr (bits : List Nat) (ipV6 : Bool)
    (hlen : bits.length ≤ 8 * (if ipV6 then 16 else 4)) :
    maskOnes (BitsToCidr bits ipV6).mask = bits.length :=
  maskOnes_ones_zeros _ _ _ (bytesBits_BitsToCidr_mask bits ipV6 hlen)

/-- C7: converting a bit vector (length 1 to 32 for v4, 1 to 128 for v6)
to a CIDR and back yields the vector itself together with
`maskSize - 1`, and the produced mask has exactly `len(bits)` leading set
bits. -/
theorem C7_roundtrip (bits : List Nat) (ipV6 : Bool)
    (hbits : ∀ b ∈ bits, b ≤ 1) (h1 : 1 ≤ bits.length)
    (hW : bits.length ≤ if ipV6 then 128 else 32) :
    CidrToBits (BitsToCidr bits ipV6) = GoResult.ok (bits, bits.length - 1) ∧
    maskOnes (BitsToCidr bits ipV6).mask = bits.length := by
  have hW' : bits.length ≤ 8 * (if ipV6 then 16 else 4) := by
    cases ipV6 <;> simpa using hW
  have hm := maskOnes_BitsToCidr bits ipV6 hW'
  refine ⟨?_, hm⟩
  unfold CidrToBits
  simp only [hm]
  rw [if_neg (by omega)]
  have hip := bytesBits_BitsToCidr_ip bits ipV6 hbits hW'
  have hlen2 : (bytesBits (BitsToCidr bits ipV6).ip).length =
      8 * (if ipV6 then 16 else 4) := by
    rw [hip]
    simp
    omega
  rw [if_pos (by omega)]
  rw [hip, List.take_left]

theorem C7_witness :
    (∀ b ∈ ([1, 0, 1] : List Nat), b ≤ 1) ∧
    1 ≤ ([1, 0, 1] : List Nat).length ∧
    ([1, 0, 1] : List Nat).length ≤ (if false then 128 else 32 : Nat) ∧
    CidrToBits (BitsToCidr [1, 0, 1] false) = GoResult.ok ([1, 0, 1], 2) ∧
    maskOnes (BitsToCidr [1, 0, 1] false).mask = 3 :=
  ⟨by decide, by decide, by decide,
   (C7_roundtrip [1, 0, 1] false (by decide) (by decide) (by decide)).1,
   (C7_roundtrip [1, 0, 1] false (by decide) (by decide) (by decide)).2⟩

/-! ## C6: splitAround materializes the complement -/

/-- The path of the sibling attached next to the depth-`k+1` ancestor of
the node at `p`: the first `k` bits of `p` followed by the flipped bit. -/
def sibPathAt (p : List Nat) (k : Nat) : List Nat :=
  p.take k ++ [p.getD k 0 ^^^ 1]

/-- The complement paths `splitAround` materializes between depths
`p.length` and `dOut`, deepest first. -/
def sibsList (p : List Nat) (dOut : Nat) : List (List Nat) :=
  (List.range (p.length - dOut)).map (fun i => sibPathAt p (p.length - 1 - i))

theorem xor_one_ne (b : Nat) : b ^^^ 1 ≠ b := by
  intro h
  have h2 := congrArg (fun x => x.testBit 0) h
  have ht1 : (1 : Nat).testBit 0 = true := rfl
  simp only [Nat.testBit_xor, ht1, Bool.xor_true] at h2
  simp at h2

theorem xor_one_le {b : Nat} (hb : b ≤ 1) : b ^^^ 1 ≤ 1 := by
  interval_cases b <;> decide

theorem bit_ne_iff {x b : Nat} (hx : x ≤ 1) (hb : b ≤ 1) :
    x ≠ b ↔ x = b ^^^ 1 := by
  interval_cases x <;> interval_cases b <;> simp_all

theorem sibPathAt_length {p : List Nat} {k : Nat} (hk : k ≤ p.length) :
    (sibPathAt p k).length = k + 1 := by
  simp [sibPathAt]
  omega

theorem sibPathAt_getD_last {p : List Nat} {k : Nat} (hk : k ≤ p.length) :
    (sibPathAt p k).getD k 0 = p.getD k 0 ^^^ 1 := by
  unfold sibPathAt
  have hl : (p.take k).length = k := by simp; omega
  have hr := List.getD_append_right (p.take k) [p.getD k 0 ^^^ 1] 0 k (by omega)
  rw [hr, hl]
  simp

theorem sibPathAt_getD_front {p : List Nat} {k i : Nat} (hk : k ≤ p.length)
    (hi : i < k) : (sibPathAt p k).getD i 0 = p.getD i 0 := by
  unfold sibPathAt
  rw [List.getD_append _ _ _ _ (by simp; omega)]
  exact getD_take hi

/-- Two different complement paths are never prefix-related. -/
theorem sib_disjoint {p : List Nat} {k1 k2 : Nat} (h12 : k2 < k1)
    (hk1 : k1 < p.length) :
    ¬ isPref (sibPathAt p k1) (sibPathAt p k2) ∧
    ¬ isPref (sibPathAt p k2) (sibPathAt p k1) := by
  constructor
  · intro hpref
    have := isPref_length hpref
    rw [sibPathAt_length (by omega), sibPathAt_length (by omega)] at this
    omega
  · intro hpref
    have hg := isPref_getD hpref (i := k2) (by rw [sibPathAt_length (by omega)]; omega)
    rw [sibPathAt_getD_last (by omega), sibPathAt_getD_front (by omega) h12] at hg
    exact xor_one_ne _ hg.symm

/-- Membership in the complement list. -/
theorem mem_sibsList {p : List Nat} {dOut : Nat} {a : List Nat} :
    a ∈ sibsList p dOut ↔ ∃ k, dOut ≤ k ∧ k < p.length ∧ a = sibPathAt p k := by
  unfold sibsList
  simp only [List.mem_map, List.mem_range]
  constructor
  · rintro ⟨i, hi, rfl⟩
    exact ⟨p.length - 1 - i, by omega, by omega, rfl⟩
  · rintro ⟨k, hk1, hk2, rfl⟩
    refine ⟨p.length - 1 - k, by omega, ?_⟩
    congr 1
    omega

theorem sibsList_pairwise (p : List Nat) (dOut : Nat) :
    List.Pairwise (fun a b => ¬ isPref a b ∧ ¬ isPref b a) (sibsList p dOut) := by
  rw [List.pairwise_iff_getElem]
  intro i j hi hj hij
  simp only [sibsList, List.length_map, List.length_range] at hi hj
  have hgi : (sibsList p dOut)[i] = sibPathAt p (p.length - 1 - i) := by
    simp [sibsList]
  have hgj : (sibsList p dOut)[j] = sibPathAt p (p.length - 1 - j) := by
    simp [sibsList]
  rw [hgi, hgj]
  have hd := @sib_disjoint p (p.length - 1 - i) (p.length - 1 - j)
    (by omega) (by omega)
  exact ⟨hd.1, hd.2⟩

/-- Elements of a list at valid indices are bounded by the list bound. -/
theorem getD_le_of_all {x : List Nat} (hbx : ∀ b ∈ x, b ≤ 1) {i : Nat}
    (hi : i < x.length) : x.getD i 0 ≤ 1 := by
  apply hbx
  rw [List.getD_eq_getElem?_getD, List.getElem?_eq_getElem hi]
  exact List.getElem_mem _

/-- Coverage: an address below the outer prefix avoids the inner prefix
exactly when it extends one of the complement paths. -/
theorem sib_cover (p : List Nat) (dOut : Nat) (hd : dOut < p.length)
    (hbp : ∀ b ∈ p, b ≤ 1) (x : List Nat) (hlen : p.length ≤ x.length)
    (hbx : ∀ b ∈ x, b ≤ 1) :
    (isPref (p.take dOut) x ∧ ¬ isPref p x) ↔
      ∃ k, dOut ≤ k ∧ k < p.length ∧ isPref (sibPathAt p k) x := by
  constructor
  · rintro ⟨houter, hinner⟩
    have hex : ∃ i, i < p.length ∧ x.getD i 0 ≠ p.getD i 0 := by
      by_contra hno
      push_neg at hno
      exact hinner (isPref_of_getD hlen hno)
    have hfind := Nat.find_spec hex
    have hkmin : ∀ j, j < Nat.find hex → ¬ (j < p.length ∧ x.getD j 0 ≠ p.getD j 0) :=
      fun j hj => Nat.find_min hex hj
    set k := Nat.find hex with hkdef
    have hkp : k < p.length := hfind.1
    have hkne : x.getD k 0 ≠ p.getD k 0 := hfind.2
    have heqbelow : ∀ j, j < k → x.getD j 0 = p.getD j 0 := by
      intro j hj
      have hcontra := hkmin j hj
      push_neg at hcontra
      exact hcontra (by omega)
    have hkdOut : dOut ≤ k := by
      by_contra hlt
      push_neg at hlt
      apply hkne
      have hx1 := isPref_getD houter (i := k) (by rw [List.length_take]; omega)
      rw [hx1]
      exact getD_take (by omega)
    refine ⟨k, hkdOut, hkp, ?_⟩
    apply isPref_of_getD
    · rw [sibPathAt_length (by omega)]
      omega
    · intro i hi
      rw [sibPathAt_length (by omega)] at hi
      rcases Nat.lt_or_ge i k with hik | hik
      · rw [sibPathAt_getD_front (by omega) hik]
        exact heqbelow i hik
      · have hieq : i = k := by omega
        rw [hieq, sibPathAt_getD_last (by omega)]
        have hxk : x.getD k 0 ≤ 1 := getD_le_of_all hbx (by omega)
        have hpk : p.getD k 0 ≤ 1 := getD_le_of_all hbp (by omega)
        exact (bit_ne_iff hxk hpk).mp hkne
  · rintro ⟨k, hk1, hk2, hpref⟩
    constructor
    · apply isPref_trans _ hpref
      apply isPref_trans (b := p.take k)
      · unfold isPref
        rw [List.take_take, List.length_take]
        congr 1
        omega
      · exact isPref_append _ _
    · intro hpx
      have h1 := isPref_getD hpx (i := k) hk2
      have h2 := isPref_getD hpref (i := k) (by rw [sibPathAt_length (by omega)]; omega)
      rw [sibPathAt_getD_last (by omega)] at h2
      rw [h1] at h2
      exact xor_one_ne _ h2.symm

theorem getNode_append : ∀ (a : List Nat) (t : BTrie) (b : List Nat),
    getNode t (a ++ b) = (getNode t a).bind (fun u => getNode u b)
  | [], t, b => rfl
  | x :: rest, t, b => by
    cases t with
    | mk m c0 c1 =>
      cases hx : (BTrie.mk m c0 c1).childAt x with
      | none => simp [getNode, hx]
      | some ch => simp [getNode, hx, getNode_append rest ch b]

theorem getNode_snoc (t : BTrie) (a : List Nat) (bit : Nat) :
    getNode t (a ++ [bit]) = (getNode t a).bind (fun u => u.childAt bit) := by
  rw [getNode_append]
  cases hg : getNode t a with
  | none => simp
  | some u =>
    show getNode u [bit] = u.childAt bit
    cases hc : u.childAt bit <;> simp [getNode, hc]

theorem getNode_isSome_take : ∀ (j : Nat) (q : List Nat) (t : BTrie),
    (getNode t q).isSome → (getNode t (q.take j)).isSome
  | 0, _, t, _ => by simp [getNode]
  | j + 1, [], t, h => by simpa using h
  | j + 1, b :: rest, t, h => by
    cases t with
    | mk m c0 c1 =>
      simp only [List.take_succ_cons]
      cases hx : (BTrie.mk m c0 c1).childAt b with
      | none => simp [getNode, hx] at h
      | some ch =>
        simp only [getNode, hx] at h ⊢
        exact getNode_isSome_take j rest ch h

/-- A successful attach: the flag is true and the new node is in place. -/
theorem attach_creates : ∀ (par : List Nat) (t parent : BTrie) (bit : Nat) (ch : BTrie),
    getNode t par = some parent → parent.childAt bit = none → bit ≤ 1 →
    (attachChildAt t par bit ch).2 = true ∧
    getNode (attachChildAt t par bit ch).1 (par ++ [bit]) = some ch
  | [], t, parent, bit, ch, hpar, hslot, hbit => by
    simp [getNode] at hpar
    subst hpar
    cases t with
    | mk m c0 c1 =>
      interval_cases bit
      · simp only [BTrie.childAt] at hslot
        subst hslot
        simp [attachChildAt, BTrie.childAt, setChildAt, getNode]
      · simp only [BTrie.childAt] at hslot
        subst hslot
        simp [attachChildAt, BTrie.childAt, setChildAt, getNode]
  | b :: rest, t, parent, bit, ch, hpar, hslot, hbit => by
    cases t with
    | mk m c0 c1 =>
      cases b with
      | zero =>
        cases c0 with
        | none => simp [getNode, BTrie.childAt] at hpar
        | some u =>
          simp only [getNode, BTrie.childAt] at hpar
          have ih := attach_creates rest u parent bit ch hpar hslot hbit
          constructor
          · simpa [attachChildAt, BTrie.childAt] using ih.1
          · simp only [List.cons_append]
            simpa [attachChildAt, BTrie.childAt, setChildAt, getNode] using ih.2
      | succ b' =>
        cases b' with
        | zero =>
          cases c1 with
          | none => simp [getNode, BTrie.childAt] at hpar
          | some u =>
            simp only [getNode, BTrie.childAt] at hpar
            have ih := attach_creates rest u parent bit ch hpar hslot hbit
            constructor
            · simpa [attachChildAt, BTrie.childAt] using ih.1
            · simp only [List.cons_append]
              simpa [attachChildAt, BTrie.childAt, setChildAt, getNode] using ih.2
        | succ n => simp [getNode, BTrie.childAt] at hpar

/-- Attaching never removes nodes. -/
theorem attach_mono : ∀ (par : List Nat) (t : BTrie) (bit : Nat) (ch : BTrie) (q : List Nat),
    (getNode t q).isSome → (getNode (attachChildAt t par bit ch).1 q).isSome
  | [], t, bit, ch, q, h => by
    cases t with
    | mk m c0 c1 =>
      cases hslot : (BTrie.mk m c0 c1).childAt bit with
      | some e => simpa [attachChildAt, hslot] using h
      | none =>
        cases q with
        | nil => simp [attachChildAt, hslot, getNode]
        | cons qb qrest =>
          rcases bit with _ | _ | bn <;> rcases qb with _ | _ | qn <;>
            simp_all [attachChildAt, setChildAt, BTrie.childAt, getNode]
  | pb :: prest, t, bit, ch, q, h => by
    cases t with
    | mk m c0 c1 =>
      cases hpc : (BTrie.mk m c0 c1).childAt pb with
      | none => simpa [attachChildAt, hpc] using h
      | some u =>
        cases q with
        | nil => simp [getNode]
        | cons qb qrest =>
          have hmono := fun hq => attach_mono prest u bit ch qrest hq
          rcases pb with _ | _ | pn <;> rcases qb with _ | _ | qn <;>
            simp_all [attachChildAt, setChildAt, BTrie.childAt, getNode]

/-- Attaching at one edge leaves every prefix-incomparable path alone. -/
theorem attach_pres : ∀ (par : List Nat) (t : BTrie) (bit : Nat) (ch : BTrie) (q : List Nat),
    ¬ isPref (par ++ [bit]) q → ¬ isPref q (par ++ [bit]) →
    getNode (attachChildAt t par bit ch).1 q = getNode t q
  | [], t, bit, ch, q, h1, h2 => by
    cases q with
    | nil => exact absurd (isPref_nil _) h2
    | cons qb qrest =>
      have hqb : qb ≠ bit := by
        intro heq
        subst heq
        cases qrest with
        | nil => exact h2 (isPref_refl _)
        | cons qh qt =>
          apply h1
          show isPref ([] ++ [qb]) (qb :: qh :: qt)
          rw [List.nil_append]
          exact isPref_cons_iff.mpr ⟨rfl, isPref_nil _⟩
      cases t with
      | mk m c0 c1 =>
        cases hslot : (BTrie.mk m c0 c1).childAt bit with
        | some e => simp [attachChildAt, hslot]
        | none =>
          rcases bit with _ | _ | bn <;> rcases qb with _ | _ | qn <;>
            simp_all [attachChildAt, setChildAt, BTrie.childAt, getNode]
  | pb :: prest, t, bit, ch, q, h1, h2 => by
    cases q with
    | nil => exact absurd (isPref_nil _) h2
    | cons qb qrest =>
      cases t with
      | mk m c0 c1 =>
        cases hpc : (BTrie.mk m c0 c1).childAt pb with
        | none => simp [attachChildAt, hpc]
        | some u =>
          by_cases hqp : qb = pb
          · subst hqp
            have h1' : ¬ isPref (prest ++ [bit]) qrest := by
              intro hc
              exact h1 (by
                rw [List.cons_append]
                exact isPref_cons_iff.mpr ⟨rfl, hc⟩)
            have h2' : ¬ isPref qrest (prest ++ [bit]) := by
              intro hc
              exact h2 (by
                rw [List.cons_append]
                exact isPref_cons_iff.mpr ⟨rfl, hc⟩)
            have ih := attach_pres prest u bit ch qrest h1' h2'
            rcases qb with _ | _ | qn <;>
              simp_all [attachChildAt, setChildAt, BTrie.childAt, getNode]
          · rcases pb with _ | _ | pn <;> rcases qb with _ | _ | qn <;>
              simp_all [attachChildAt, setChildAt, BTrie.childAt, getNode]

theorem take_succ_getD {p : List Nat} {m : Nat} (hm : m < p.length) :
    p.take (m + 1) = p.take m ++ [p.getD m 0] := by
  rw [List.take_succ]
  simp [List.getD_eq_getElem?_getD, List.getElem?_eq_getElem hm]

/-- The walk of `splitLoop` starting at depth `m` on the ancestor chain of
`p`: with all sibling slots between depths `dOut` and `m` empty, it
attaches exactly the complement nodes at those depths, touches nothing
else, and returns their paths deepest first. -/
theorem splitLoop_spec (p : List Nat) (meta : Metadata) (dOut : Nat)
    (hbp : ∀ b ∈ p, b ≤ 1) :
    ∀ (m : Nat) (t : BTrie), m ≤ p.length →
    (∀ j, (getNode t (p.take j)).isSome) →
    (∀ k, dOut ≤ k → k < m → getNode t (sibPathAt p k) = none) →
    ∀ t' added, splitLoop t meta dOut ((p.take m).reverse) = (t', added) →
      added = (List.range (m - dOut)).map (fun i => sibPathAt p (m - 1 - i)) ∧
      (∀ a ∈ added, getNode t' a = some (BTrie.mk (some meta) none none)) ∧
      (∀ j, (getNode t' (p.take j)).isSome) ∧
      (∀ q, (∀ k, dOut ≤ k → k < m →
          ¬ isPref (sibPathAt p k) q ∧ ¬ isPref q (sibPathAt p k)) →
        getNode t' q = getNode t q)
  | 0, t, _, hanc, _, t', added, hrun => by
    simp only [List.take_zero, List.reverse_nil, splitLoop, Prod.mk.injEq] at hrun
    obtain ⟨rfl, rfl⟩ := hrun
    exact ⟨by simp, by simp, hanc, fun q _ => rfl⟩
  | m + 1, t, hm1, hanc, hemp, t', added, hrun => by
    have hmlt : m < p.length := by omega
    have hrev : (p.take (m + 1)).reverse = p.getD m 0 :: (p.take m).reverse := by
      rw [take_succ_getD hmlt]
      simp
    rw [hrev, splitLoop] at hrun
    have hrlen : ((p.take m).reverse).length = m := by simp; omega
    by_cases hcond : m + 1 > dOut
    · rw [if_pos (by rw [hrlen]; omega)] at hrun
      simp only [List.reverse_reverse] at hrun
      have hdm : dOut ≤ m := by omega
      -- the attach of the sibling at depth m+1, i.e. the path sibPathAt p m
      obtain ⟨parent, hparent⟩ := Option.isSome_iff_exists.mp (hanc m)
      have hbitm : p.getD m 0 ≤ 1 := getD_le_of_all hbp hmlt
      have hslot : parent.childAt (p.getD m 0 ^^^ 1) = none := by
        have hs := hemp m hdm (by omega)
        unfold sibPathAt at hs
        rw [getNode_snoc, hparent] at hs
        simpa using hs
      obtain ⟨hflag, hnew⟩ := attach_creates (p.take m) t parent (p.getD m 0 ^^^ 1)
        (BTrie.mk (some meta) none none) hparent hslot (xor_one_le hbitm)
      rw [hflag] at hrun
      rw [if_pos rfl] at hrun
      obtain ⟨t2, added2, hsplit⟩ : ∃ t2 added2,
          splitLoop (attachChildAt t (p.take m) (p.getD m 0 ^^^ 1)
            (BTrie.mk (some meta) none none)).1 meta dOut ((p.take m).reverse) =
          (t2, added2) := ⟨_, _, rfl⟩
      rw [hsplit] at hrun
      simp only [Prod.mk.injEq] at hrun
      obtain ⟨rfl, rfl⟩ := hrun
      have hsib_pres : ∀ k, dOut ≤ k → k < m →
          getNode (attachChildAt t (p.take m) (p.getD m 0 ^^^ 1)
            (BTrie.mk (some meta) none none)).1 (sibPathAt p k) =
          getNode t (sibPathAt p k) := by
        intro k hk1 hk2
        have hd := @sib_disjoint p m k hk2 hmlt
        exact attach_pres (p.take m) t (p.getD m 0 ^^^ 1) _ (sibPathAt p k) hd.1 hd.2
      have ih := splitLoop_spec p meta dOut hbp m
        (attachChildAt t (p.take m) (p.getD m 0 ^^^ 1)
          (BTrie.mk (some meta) none none)).1
        (by omega)
        (fun j => attach_mono _ _ _ _ _ (hanc j))
        (fun k hk1 hk2 => by rw [hsib_pres k hk1 hk2]; exact hemp k hk1 (by omega))
        t2 added2 hsplit
      obtain ⟨hadded2, hfresh2, hanc2, hpres2⟩ := ih
      have hedge : p.take m ++ [p.getD m 0 ^^^ 1] = sibPathAt p m := rfl
      refine ⟨?_, ?_, hanc2, ?_⟩
      · rw [hadded2, hedge]
        have h1 : m + 1 - dOut = (m - dOut) + 1 := by omega
        rw [h1, List.range_succ_eq_map]
        simp only [List.map_cons, List.map_map]
        refine congrArg₂ List.cons ?_ ?_
        · congr 1
        · apply List.map_congr_left
          intro i hi
          simp only [Function.comp]
          congr 1
          have := List.mem_range.mp hi
          omega
      · intro a ha
        rw [hedge] at ha
        rcases List.mem_cons.mp ha with rfl | ha2
        · rw [hpres2 (sibPathAt p m) ?_]
          · exact hedge ▸ hnew
          · intro k hk1 hk2
            have hd := @sib_disjoint p m k hk2 hmlt
            exact ⟨hd.2, hd.1⟩
        · exact hfresh2 a ha2
      · intro q hq
        rw [hpres2 q (fun k hk1 hk2 => hq k hk1 (by omega))]
        have hqm := hq m hdm (by omega)
        exact attach_pres (p.take m) t (p.getD m 0 ^^^ 1) _ q
          (hedge ▸ hqm.1) (hedge ▸ hqm.2)
    · rw [if_neg (by rw [hrlen]; omega)] at hrun
      simp only [Prod.mk.injEq] at hrun
      obtain ⟨rfl, rfl⟩ := hrun
      have h0 : m + 1 - dOut = 0 := by omega
      exact ⟨by rw [h0]; simp, by simp, hanc, fun q _ => rfl⟩

/-- C6: on an inner node strictly inside the outer prefix with all
sibling slots along the chain empty, `splitAround` attaches and returns
exactly `depth(inner) - depth(outer)` new sibling nodes carrying the outer
metadata; their paths are pairwise disjoint and cover exactly the
addresses that lie under the outer prefix but not under the inner one. -/
theorem C6_splitAround_complements (t : BTrie) (p : List Nat) (meta : Metadata)
    (dOut : Nat) (t' : BTrie) (added : List (List Nat))
    (hnode : (getNode t p).isSome)
    (hd : dOut < p.length)
    (hemp : ∀ k, dOut ≤ k → k < p.length → getNode t (sibPathAt p k) = none)
    (hbits : ∀ b ∈ p, b ≤ 1)
    (hrun : splitAround t p (some meta) dOut = GoResult.ok (t', added)) :
    added.length = p.length - dOut ∧
    (∀ a ∈ added, getNode t' a = some (BTrie.mk (some meta) none none)) ∧
    List.Pairwise (fun a b => ¬ isPref a b ∧ ¬ isPref b a) added ∧
    (∀ x : List Nat, p.length ≤ x.length → (∀ b ∈ x, b ≤ 1) →
      ((isPref (p.take dOut) x ∧ ¬ isPref p x) ↔ ∃ a ∈ added, isPref a x)) := by
  have hpair : splitLoop t meta dOut ((p.take p.length).reverse) = (t', added) := by
    unfold splitAround at hrun
    rw [List.take_length]
    simpa using hrun
  have hanc : ∀ j, (getNode t (p.take j)).isSome := by
    intro j
    rcases Nat.lt_or_ge j p.length with hj | hj
    · exact getNode_isSome_take j p t hnode
    · rw [List.take_of_length_le hj]
      exact hnode
  obtain ⟨hadded, hfresh, _, _⟩ :=
    splitLoop_spec p meta dOut hbits p.length t (le_refl _) hanc hemp t' added hpair
  have hsibs : added = sibsList p dOut := by rw [hadded]; rfl
  refine ⟨?_, hfresh, ?_, ?_⟩
  · rw [hadded]
    simp
  · rw [hsibs]
    exact sibsList_pairwise p dOut
  · intro x hxlen hxbits
    rw [hsibs, sib_cover p dOut hd hbits x hxlen hxbits]
    constructor
    · rintro ⟨k, hk1, hk2, hpref⟩
      exact ⟨sibPathAt p k, mem_sibsList.mpr ⟨k, hk1, hk2, rfl⟩, hpref⟩
    · rintro ⟨a, ha, hpref⟩
      obtain ⟨k, hk1, hk2, rfl⟩ := mem_sibsList.mp ha
      exact ⟨k, hk1, hk2, hpref⟩

/-- Concrete trie for the C6 witness: root → path node → entry at [0,0]
(the inner /2 inside the outer /1). -/
def c6tree : BTrie :=
  BTrie.mk none
    (some (BTrie.mk none (some (BTrie.mk (some { Priority := [5] }) none none)) none))
    none

def c6meta : Metadata := { Priority := [9] }

def c6run : BTrie × List (List Nat) :=
  (splitAround c6tree [0, 0] (some c6meta) 1).okD (c6tree, [])

theorem C6_witness :
    (getNode c6tree [0, 0]).isSome = true ∧
    (1 : Nat) < ([0, 0] : List Nat).length ∧
    (∀ k, 1 ≤ k → k < ([0, 0] : List Nat).length →
      getNode c6tree (sibPathAt [0, 0] k) = none) ∧
    (∀ b ∈ ([0, 0] : List Nat), b ≤ 1) ∧
    splitAround c6tree [0, 0] (some c6meta) 1 = GoResult.ok (c6run.1, c6run.2) ∧
    (c6run.2.length = ([0, 0] : List Nat).length - 1 ∧
     (∀ a ∈ c6run.2, getNode c6run.1 a = some (BTrie.mk (some c6meta) none none)) ∧
     List.Pairwise (fun a b => ¬ isPref a b ∧ ¬ isPref b a) c6run.2 ∧
     (∀ x : List Nat, ([0, 0] : List Nat).length ≤ x.length → (∀ b ∈ x, b ≤ 1) →
       ((isPref (([0, 0] : List Nat).take 1) x ∧ ¬ isPref [0, 0] x) ↔
         ∃ a ∈ c6run.2, isPref a x))) :=
  ⟨rfl, by decide,
   by intro k hk1 hk2
      simp only [List.length_cons, List.length_nil] at hk2
      interval_cases k
      rfl,
   by decide, rfl,
   C6_splitAround_complements c6tree [0, 0] c6meta 1 c6run.1 c6run.2 rfl (by decide)
     (by intro k hk1 hk2
         simp only [List.length_cons, List.length_nil] at hk2
         interval_cases k
         rfl)
     (by decide) rfl⟩

end SupernetModel
